import Mathlib

/-!
Verification of `src/fivetranLoopsConnector/connector.py`.

The Python source is shallowly embedded: Python strings are lists of
characters, Python dicts are insertion-ordered association lists, fallible
Python code (code that can raise) returns `Except`, and the generator-based
sync driver is a pure function from its inputs to the list of emitted
operations.  Network calls are modelled by passing the fetched payloads in
as explicit arguments; everything downstream of those payloads is
translated from the source.
-/

namespace LoopsConnector

/-- Python strings are modelled as lists of characters. -/
abbrev Str := List Char

/-- View a Lean string literal as a character list. -/
def str (s : String) : Str := s.toList

/-- Python `str.lower`, modelled on ASCII. -/
def pyLower (s : Str) : Str := s.map Char.toLower

/-! ### Character toolkit -/

theorem char_toNat_ofNat (n : Nat) (h : n.isValidChar) : (Char.ofNat n).toNat = n := by
  simp only [Char.ofNat, h, dif_pos, Char.ofNatAux, Char.toNat, UInt32.toNat,
    BitVec.toNat_ofNatLt]

theorem char_toNat_inj {c d : Char} (h : c.toNat = d.toNat) : c = d := by
  apply Char.ext; apply UInt32.ext; exact h

theorem char_isUpper_iff {c : Char} : c.isUpper = true ↔ 65 ≤ c.toNat ∧ c.toNat ≤ 90 := by
  simp only [Char.isUpper, Bool.and_eq_true, decide_eq_true_eq, ge_iff_le, Char.toNat]
  exact Iff.rfl

theorem char_isLower_iff {c : Char} : c.isLower = true ↔ 97 ≤ c.toNat ∧ c.toNat ≤ 122 := by
  simp only [Char.isLower, Bool.and_eq_true, decide_eq_true_eq, ge_iff_le, Char.toNat]
  exact Iff.rfl

theorem char_isDigit_iff {c : Char} : c.isDigit = true ↔ 48 ≤ c.toNat ∧ c.toNat ≤ 57 := by
  simp only [Char.isDigit, Bool.and_eq_true, decide_eq_true_eq, ge_iff_le, Char.toNat]
  exact Iff.rfl

theorem char_toLower_of_not_upper {c : Char} (h : c.toNat < 65 ∨ 90 < c.toNat) :
    c.toLower = c := by
  unfold Char.toLower
  rw [if_neg]; omega

theorem char_toLower_of_upper {c : Char} (h : 65 ≤ c.toNat ∧ c.toNat ≤ 90) :
    c.toLower.toNat = c.toNat + 32 := by
  unfold Char.toLower
  rw [if_pos h, char_toNat_ofNat]
  left; omega

/-! ### Name Normalizer (connector.py lines 105-132) -/

/-- `re.sub(r'(?<!^)(?=[A-Z])', '_', name)` inserts `_` before every ASCII
uppercase letter; this helper handles every position after the first. -/
def camelSubAux : List Char → List Char
  | [] => []
  | c :: cs => (if c.isUpper then ['_', c] else [c]) ++ camelSubAux cs

/-- The lookbehind `(?<!^)` exempts position 0 from the insertion. -/
def camelSub : Str → Str
  | [] => []
  | c :: cs => c :: camelSubAux cs

/-- `camel_to_snake` (lines 105-108): insert `_` before each uppercase letter
not at position 0, then lowercase.  Python `str.lower` is modelled as ASCII
`Char.toLower`; every non-ASCII character is replaced by `_` in
`sanitize_sql_name` regardless of case, so nothing downstream depends on
non-ASCII lowercasing. -/
def camel_to_snake (name : Str) : Str :=
  (camelSub name).map Char.toLower

/-- `sanitize_sql_name` (lines 110-123): replace every character outside
`[a-zA-Z0-9]` with `_`, prefix `f_` when the result starts with a digit, and
lowercase.  The digit test `sanitized[0].isdigit()` raises `IndexError` on
the empty string, hence the `Except`. -/
def sanitize_sql_name (name : Str) : Except Str Str :=
  let sanitized := name.map (fun c => if c.isAlphanum then c else '_')
  match sanitized with
  | [] => .error (str "IndexError: string index out of range")
  | c :: cs =>
      .ok ((if c.isDigit then 'f' :: '_' :: c :: cs else c :: cs).map Char.toLower)

/-- `normalize_field_name` (lines 125-132): camelCase split followed by SQL
sanitization. -/
def normalize_field_name (field_name : Str) : Except Str Str :=
  sanitize_sql_name (camel_to_snake field_name)

/-! ### Canonical-output characterization used for idempotence -/

/-- Characters that can appear in a successful `sanitize_sql_name` output. -/
def isCanonChar (c : Char) : Prop := c.isLower = true ∨ c.isDigit = true ∨ c = '_'

theorem canon_toLower_fix {c : Char} (h : isCanonChar c) : c.toLower = c := by
  apply char_toLower_of_not_upper
  rcases h with h | h | h
  · rw [char_isLower_iff] at h; omega
  · rw [char_isDigit_iff] at h; omega
  · subst h; right; decide

theorem canon_not_upper {c : Char} (h : isCanonChar c) : c.isUpper = false := by
  rw [Bool.eq_false_iff]
  intro hu
  rw [char_isUpper_iff] at hu
  rcases h with h | h | h
  · rw [char_isLower_iff] at h; omega
  · rw [char_isDigit_iff] at h; omega
  · subst h
    have : ('_').toNat = 95 := by decide
    omega

theorem canon_sanitize_fix {c : Char} (h : isCanonChar c) :
    (if c.isAlphanum then c else '_') = c := by
  rcases h with h | h | h
  · simp [Char.isAlphanum, Char.isAlpha, h]
  · simp [Char.isAlphanum, h]
  · subst h; decide

/-- Lowercasing a character that survives the `[^a-zA-Z0-9] → _` replacement
yields a canonical character. -/
theorem sanitized_toLower_canon {c : Char}
    (h : c.isAlphanum = true ∨ c = '_') : isCanonChar c.toLower := by
  rcases h with h | h
  · simp only [Char.isAlphanum, Bool.or_eq_true, Char.isAlpha] at h
    rcases h with h | h
    · rcases h with h | h
      · rw [char_isUpper_iff] at h
        left
        rw [char_isLower_iff, char_toLower_of_upper h]
        omega
      · left
        rwa [canon_toLower_fix (Or.inl h)]
    · right; left
      rw [char_isDigit_iff] at h
      rw [char_toLower_of_not_upper (by omega)]
      rw [char_isDigit_iff]
      exact h
  · subst h; right; right; decide

theorem map_fix {f : Char → Char} : ∀ l : Str, (∀ c ∈ l, f c = c) → l.map f = l := by
  intro l h
  induction l with
  | nil => rfl
  | cons c cs ih =>
      simp only [List.map_cons]
      rw [h c (by simp), ih (fun d hd => h d (by simp [hd]))]

theorem camelSubAux_fix : ∀ l : Str, (∀ c ∈ l, c.isUpper = false) → camelSubAux l = l := by
  intro l h
  induction l with
  | nil => rfl
  | cons c cs ih =>
      simp only [camelSubAux, h c (by simp), Bool.false_eq_true, if_false,
        List.singleton_append, List.cons.injEq, true_and]
      exact ih (fun d hd => h d (by simp [hd]))

/-- Members of a successful `sanitize_sql_name` output are canonical. -/
theorem sanitize_output_canon {l r : Str} (h : sanitize_sql_name l = .ok r) :
    ∀ c ∈ r, isCanonChar c := by
  unfold sanitize_sql_name at h
  revert h
  cases hm : l.map (fun c => if c.isAlphanum then c else '_') with
  | nil => intro h; exact absurd h (by simp)
  | cons c cs =>
      intro h
      simp only [Except.ok.injEq] at h
      subst h
      intro d hd
      rw [List.mem_map] at hd
      obtain ⟨e, he, hde⟩ := hd
      subst hde
      apply sanitized_toLower_canon
      -- every member of the `if`-selected list is a member of `c :: cs`
      -- (possibly with the literal prefix characters), and `c :: cs` is the
      -- image of the replacement map
      have hmem : e = 'f' ∨ e = '_' ∨ e ∈ c :: cs := by
        by_cases hc : c.isDigit
        · simp only [hc, if_pos, List.mem_cons] at he
          rcases he with he | he | he
          · left; exact he
          · right; left; exact he
          · right; right; rw [List.mem_cons]; exact he
        · simp only [hc, Bool.false_eq_true, if_false] at he
          right; right; exact he
      rcases hmem with he' | he' | he'
      · subst he'; left; decide
      · subst he'; right; rfl
      · rw [← hm] at he'
        rw [List.mem_map] at he'
        obtain ⟨a, _, ha⟩ := he'
        by_cases hal : a.isAlphanum
        · left; rw [← ha, if_pos hal]; exact hal
        · right; rw [← ha, if_neg hal]

/-- A canonical string maps to itself under `sanitize_sql_name`, provided it
is non-empty and does not start with a digit. -/
theorem sanitize_canon_fix {r : Str} (hcanon : ∀ c ∈ r, isCanonChar c)
    (hne : r ≠ []) (hd : ∀ c, r.head? = some c → c.isDigit = false) :
    sanitize_sql_name r = .ok r := by
  unfold sanitize_sql_name
  have hmap : r.map (fun c => if c.isAlphanum then c else '_') = r :=
    map_fix r (fun c hc => canon_sanitize_fix (hcanon c hc))
  rw [hmap]
  cases r with
  | nil => exact absurd rfl hne
  | cons c cs =>
      have hcd : c.isDigit = false := hd c rfl
      simp only [hcd, Bool.false_eq_true, if_false]
      rw [map_fix _ (fun d hdm => canon_toLower_fix (hcanon d hdm))]

/-- A canonical string is fixed by `camel_to_snake`. -/
theorem camel_canon_fix {r : Str} (hcanon : ∀ c ∈ r, isCanonChar c) :
    camel_to_snake r = r := by
  cases r with
  | nil => rfl
  | cons c cs =>
      rw [camel_to_snake]
      simp only [camelSub]
      rw [camelSubAux_fix cs (fun d hdm => canon_not_upper (hcanon d (by simp [hdm])))]
      exact map_fix _ (fun d hdm => canon_toLower_fix (hcanon d hdm))

/-- The head of a successful `sanitize_sql_name` output is not a digit. -/
theorem sanitize_output_head {l r : Str} (h : sanitize_sql_name l = .ok r) :
    ∀ c, r.head? = some c → c.isDigit = false := by
  unfold sanitize_sql_name at h
  revert h
  cases hm : l.map (fun c => if c.isAlphanum then c else '_') with
  | nil => intro h; exact absurd h (by simp)
  | cons c cs =>
      intro h
      simp only [Except.ok.injEq] at h
      subst h
      intro d hdm
      by_cases hc : c.isDigit
      · simp only [hc, if_pos, List.map_cons, List.head?_cons, Option.some.injEq] at hdm
        subst hdm; decide
      · simp only [hc, Bool.false_eq_true, if_false, List.map_cons, List.head?_cons,
          Option.some.injEq] at hdm
        subst hdm
        rw [Bool.eq_false_iff]
        intro hdig
        rw [char_isDigit_iff] at hdig
        rcases Nat.lt_or_ge c.toNat 65 with hlt | hge
        · rw [char_toLower_of_not_upper (Or.inl hlt)] at hdig
          exact hc (by rw [char_isDigit_iff]; omega)
        · rcases Nat.lt_or_ge 90 c.toNat with hgt | hle
          · rw [char_toLower_of_not_upper (Or.inr hgt)] at hdig
            exact hc (by rw [char_isDigit_iff]; omega)
          · rw [char_toLower_of_upper ⟨hge, hle⟩] at hdig
            omega

/-- A successful `sanitize_sql_name` output is non-empty. -/
theorem sanitize_output_ne {l r : Str} (h : sanitize_sql_name l = .ok r) : r ≠ [] := by
  unfold sanitize_sql_name at h
  revert h
  cases l.map (fun c => if c.isAlphanum then c else '_') with
  | nil => intro h; exact absurd h (by simp)
  | cons c cs =>
      intro h
      simp only [Except.ok.injEq] at h
      subst h
      by_cases hc : c.isDigit <;> simp [hc]

/-- `sanitize_sql_name` succeeds on every non-empty input. -/
theorem sanitize_ok_of_ne {l : Str} (h : l ≠ []) : ∃ r, sanitize_sql_name l = .ok r := by
  unfold sanitize_sql_name
  cases l with
  | nil => exact absurd rfl h
  | cons c cs => exact ⟨_, rfl⟩

theorem camel_ne_of_ne {l : Str} (h : l ≠ []) : camel_to_snake l ≠ [] := by
  cases l with
  | nil => exact absurd rfl h
  | cons c cs =>
      rw [camel_to_snake]
      simp [camelSub]

/-- C7: normalization is idempotent on every non-empty field name. -/
theorem C7_normalize_idempotent (s : Str) (h : s ≠ []) :
    ∃ r, normalize_field_name s = .ok r ∧ normalize_field_name r = .ok r := by
  obtain ⟨r, hr⟩ := sanitize_ok_of_ne (camel_ne_of_ne h)
  refine ⟨r, hr, ?_⟩
  unfold normalize_field_name
  have hcanon := sanitize_output_canon hr
  rw [camel_canon_fix hcanon]
  exact sanitize_canon_fix hcanon (sanitize_output_ne hr) (sanitize_output_head hr)

/-- C7 witness: idempotence at the concrete field name `favoriteColor`. -/
theorem C7_normalize_idempotent_witness :
    str "favoriteColor" ≠ [] ∧
      ∃ r, normalize_field_name (str "favoriteColor") = .ok r ∧
        normalize_field_name r = .ok r :=
  ⟨by decide, C7_normalize_idempotent (str "favoriteColor") (by decide)⟩

/-- C6: on the empty external name, `sanitize_sql_name` reaches the digit
prefix step `sanitized[0].isdigit()` and raises `IndexError`; there is no
validation guard. -/
theorem C6_empty_name_index_error :
    normalize_field_name (str "") =
      .error (str "IndexError: string index out of range") := rfl

/-! ### Python int() and float() literal parsing -/

/-- Numeric value of an ASCII digit character. -/
def digitVal (c : Char) : Nat := c.toNat - 48

/-- ASCII whitespace stripped by `int()` / `float()`. -/
def isPyWs (c : Char) : Bool :=
  c = ' ' || c = '\t' || c = '\n' || c = '\r' || c = '\x0b' || c = '\x0c'

/-- `str.strip()` on ASCII whitespace. -/
def pyStrip (s : Str) : Str :=
  ((s.dropWhile isPyWs).reverse.dropWhile isPyWs).reverse

/-- Digit accumulation for `int()`, allowing single underscores between
digits (Python 3.6 numeric literal grouping). -/
def digitsUAux : Nat → List Char → Option Nat
  | acc, [] => some acc
  | acc, c :: cs =>
      if c = '_' then
        match cs with
        | [] => none
        | c2 :: cs2 =>
            if c2.isDigit then digitsUAux (10 * acc + digitVal c2) cs2 else none
      else if c.isDigit then digitsUAux (10 * acc + digitVal c) cs else none

/-- Parse a non-empty digit run (underscore grouping allowed) to its value. -/
def digitsU : List Char → Option Nat
  | [] => none
  | c :: cs => if c.isDigit then digitsUAux (digitVal c) cs else none

/-- Python `int(str)`: strip whitespace, optional sign, digit run.  An
empty stripped string falls into the last branch, where `digitsU` fails. -/
def pyInt (s : Str) : Option Int :=
  let t := pyStrip s
  if t.head? = some '+' then (digitsU t.tail).map (fun n => (n : Int))
  else if t.head? = some '-' then (digitsU t.tail).map (fun n => -(n : Int))
  else (digitsU t).map (fun n => (n : Int))

/-- Consume a digit run with underscore grouping; `none` on a malformed
underscore, otherwise the unconsumed remainder.  Requires no leading digit
itself; the callers check that. -/
def digitRunUAux : List Char → Option (List Char)
  | [] => some []
  | c :: cs =>
      if c = '_' then
        match cs with
        | [] => none
        | c2 :: cs2 => if c2.isDigit then digitRunUAux cs2 else none
      else if c.isDigit then digitRunUAux cs else some (c :: cs)

/-- Consume a digit run that must start with a digit. -/
def digitRunU : List Char → Option (List Char)
  | [] => none
  | c :: cs => if c.isDigit then digitRunUAux cs else none

/-- Exponent suffix of a float literal: optional sign then digits to the
end of the string. -/
def expTailOk (cs : List Char) : Bool :=
  match cs with
  | '+' :: rest => digitRunU rest = some []
  | '-' :: rest => digitRunU rest = some []
  | rest => digitRunU rest = some []

/-- After `digits.`: optional fractional digits, optional exponent. -/
def fracExpOk (cs : List Char) : Bool :=
  match cs with
  | [] => true
  | 'e' :: tail => expTailOk tail
  | 'E' :: tail => expTailOk tail
  | rest =>
      match digitRunU rest with
      | some [] => true
      | some ('e' :: tail) => expTailOk tail
      | some ('E' :: tail) => expTailOk tail
      | _ => false

/-- Decimal float literal body (sign already removed). -/
def floatBodyOk (t : List Char) : Bool :=
  match t with
  | '.' :: rest =>
      (match digitRunU rest with
        | some [] => true
        | some ('e' :: tail) => expTailOk tail
        | some ('E' :: tail) => expTailOk tail
        | _ => false)
  | _ =>
      match digitRunU t with
      | some [] => true
      | some ('.' :: rest) => fracExpOk rest
      | some ('e' :: tail) => expTailOk tail
      | some ('E' :: tail) => expTailOk tail
      | _ => false

/-- Does Python `float(s)` succeed?  The numeric value is irrelevant to
every claim, so only acceptance is modelled. -/
def pyFloatParses (s : Str) : Bool :=
  match pyStrip s with
  | [] => false
  | c :: cs =>
      let t := if c = '+' || c = '-' then cs else c :: cs
      pyLower t = str "inf" || pyLower t = str "infinity" || pyLower t = str "nan" ||
        floatBodyOk t

/-! ### Timestamp Sanitizer (connector.py lines 213-238)

`datetime.datetime.strptime(s, "%Y-%m-%dT%H:%M:%S.%f%z")` is modelled by a
deterministic character-level reader that follows CPython `_strptime`:
`%Y` is exactly four digits, `%m %d %H %M %S` are one-or-two-digit
alternations (two-digit form first; since every following literal of this
format is a non-digit, the regex backtracking can never rescue a failed
two-digit match, so a deterministic reader is equivalent), `%f` is one to
six digits, and `%z` is `[+-]\d\d:?[0-5]\d(:?[0-5]\d(\.\d{1,6})?)?` or a
literal `Z`.  The `datetime` constructor's validation (year 1-9999, day
within month, seconds at most 59, offset strictly below 24 hours) is
applied after the pattern match, as CPython does. -/

def readDigit : List Char → Option (Nat × List Char)
  | [] => none
  | c :: cs => if c.isDigit then some (digitVal c, cs) else none

def read2 (cs : List Char) : Option (Nat × List Char) := do
  let (a, cs) ← readDigit cs
  let (b, cs) ← readDigit cs
  some (10 * a + b, cs)

def read4 (cs : List Char) : Option (Nat × List Char) := do
  let (a, cs) ← read2 cs
  let (b, cs) ← read2 cs
  some (100 * a + b, cs)

/-- One-or-two-digit field with the two-digit alternative preferred. -/
def readNum2or1 (valid2 valid1 : Nat → Bool) : List Char → Option (Nat × List Char)
  | [] => none
  | [c1] => if c1.isDigit && valid1 (digitVal c1) then some (digitVal c1, []) else none
  | c1 :: c2 :: cs =>
      if c1.isDigit then
        if c2.isDigit then
          if valid2 (10 * digitVal c1 + digitVal c2) then
            some (10 * digitVal c1 + digitVal c2, cs)
          else none
        else if valid1 (digitVal c1) then some (digitVal c1, c2 :: cs) else none
      else none

def readLit (c : Char) : List Char → Option (List Char)
  | [] => none
  | d :: cs => if d = c then some cs else none

/-- The literal `T` of the format is matched with `re.IGNORECASE`. -/
def readLitT : List Char → Option (List Char)
  | [] => none
  | d :: cs => if d = 'T' || d = 't' then some cs else none

/-- `%f`: a greedy run of one to six digits (a seventh digit can never be
given back, because `%z` cannot start with a digit). -/
def readFrac (cs : List Char) : Option (List Char) :=
  let digits := cs.takeWhile Char.isDigit
  if 1 ≤ digits.length ∧ digits.length ≤ 6 then some (cs.dropWhile Char.isDigit)
  else none

/-- Trailing fractional part of a `%z` offset: empty, or a dot followed by
one to six digits reaching the end of the string. -/
def readZoneFrac : List Char → Bool
  | [] => true
  | '.' :: cs2 =>
      decide (1 ≤ (cs2.takeWhile Char.isDigit).length ∧
        (cs2.takeWhile Char.isDigit).length ≤ 6 ∧ cs2.dropWhile Char.isDigit = [])
  | _ => false

/-- `%z` at the end of the format; returns the absolute offset in whole
seconds.  The `_strptime` regex allows each `:` independently, but its
post-processing enforces consistency: when a colon follows the hours, a
present seconds field must also be introduced by a colon (otherwise
`Inconsistent use of :` is raised), and without that first colon the
seconds slice `z[5:7]` admits no colon (`int` then raises on `:dd`).
Hence colon-separated and colon-free forms, never mixed.  `_strptime` then
builds `datetime.timezone(timedelta(...))`. -/
def readZoneEnd : List Char → Option Nat
  | ['Z'] => some 0
  | c :: cs =>
      if c = '+' || c = '-' then
        match read2 cs with
        | none => none
        | some (hh, cs1) =>
            match cs1 with
            | ':' :: cs2 =>
                match read2 cs2 with
                | none => none
                | some (mm, cs3) =>
                    if 59 < mm then none
                    else
                      match cs3 with
                      | [] => some (hh * 3600 + mm * 60)
                      | ':' :: cs4 =>
                          match read2 cs4 with
                          | none => none
                          | some (ss, cs5) =>
                              if 59 < ss then none
                              else if readZoneFrac cs5 then
                                some (hh * 3600 + mm * 60 + ss)
                              else none
                      | _ => none
            | _ =>
                match read2 cs1 with
                | none => none
                | some (mm, cs3) =>
                    if 59 < mm then none
                    else
                      match cs3 with
                      | [] => some (hh * 3600 + mm * 60)
                      | _ =>
                          match read2 cs3 with
                          | none => none
                          | some (ss, cs5) =>
                              if 59 < ss then none
                              else if readZoneFrac cs5 then
                                some (hh * 3600 + mm * 60 + ss)
                              else none
      else none
  | [] => none

def isLeap (y : Nat) : Bool := y % 4 = 0 && (y % 100 ≠ 0 || y % 400 = 0)

def daysInMonth (y mo : Nat) : Nat :=
  if mo = 2 then (if isLeap y then 29 else 28)
  else if mo = 4 ∨ mo = 6 ∨ mo = 9 ∨ mo = 11 then 30
  else 31

/-- Pattern match of `%Y-%m-%dT%H:%M:%S.%f%z` over the whole string,
yielding (year, month, day, hour, minute, second, offset-seconds). -/
def readStamp (s : Str) : Option (Nat × Nat × Nat × Nat × Nat × Nat × Nat) := do
  let (y, cs) ← read4 s
  let cs ← readLit '-' cs
  let (mo, cs) ← readNum2or1 (fun v => decide (1 ≤ v ∧ v ≤ 12)) (fun v => decide (1 ≤ v)) cs
  let cs ← readLit '-' cs
  let (d, cs) ← readNum2or1 (fun v => decide (1 ≤ v ∧ v ≤ 31)) (fun v => decide (1 ≤ v)) cs
  let cs ← readLitT cs
  let (h, cs) ← readNum2or1 (fun v => decide (v ≤ 23)) (fun _ => true) cs
  let cs ← readLit ':' cs
  let (mi, cs) ← readNum2or1 (fun v => decide (v ≤ 59)) (fun _ => true) cs
  let cs ← readLit ':' cs
  let (sec, cs) ← readNum2or1 (fun v => decide (v ≤ 61)) (fun _ => true) cs
  let cs ← readLit '.' cs
  let cs ← readFrac cs
  let off ← readZoneEnd cs
  some (y, mo, d, h, mi, sec, off)

/-- Does `datetime.strptime(s, "%Y-%m-%dT%H:%M:%S.%f%z")` succeed? -/
def pyStrptimeValid (s : Str) : Bool :=
  match readStamp s with
  | none => false
  | some (y, mo, d, _, _, sec, off) =>
      decide (1 ≤ y) && decide (d ≤ daysInMonth y mo) && decide (sec ≤ 59) &&
        decide (off < 86400)

/-- `date_str.replace('Z', '+00:00')`: every occurrence of `Z`. -/
def pyReplaceZ : Str → Str
  | [] => []
  | c :: cs => (if c = 'Z' then str "+00:00" else [c]) ++ pyReplaceZ cs

/-- `sanitize_datetime` (lines 213-238).  The log warnings carry no data
flow and are dropped; the `except (ValueError, IndexError)` block is the
`none` results of `pyInt` and the strict parse. -/
def sanitize_datetime (date_str : Str) : Option Str :=
  if date_str = [] then none
  else if date_str.head? = some '+' then none
  else
    let year_part := date_str.takeWhile (fun c => c != '-')
    if 4 < year_part.length then none
    else
      match pyInt year_part with
      | none => none
      | some n =>
          if 9999 < n then none
          else
            let substituted := pyReplaceZ date_str
            if pyStrptimeValid substituted then some substituted else none


theorem char_eq_iff_toNat {c d : Char} : c = d ↔ c.toNat = d.toNat :=
  ⟨fun h => by rw [h], char_toNat_inj⟩

theorem digit_ne {c d : Char} (h : c.isDigit = true)
    (hd : d.toNat < 48 ∨ 57 < d.toNat) : c ≠ d := by
  rw [char_isDigit_iff] at h
  intro e; subst e; omega

theorem digit_not_ws {c : Char} (h : c.isDigit = true) : isPyWs c = false := by
  rw [char_isDigit_iff] at h
  simp only [isPyWs, Bool.or_eq_false_iff, decide_eq_false_iff_not]
  refine ⟨⟨⟨⟨⟨?_, ?_⟩, ?_⟩, ?_⟩, ?_⟩, ?_⟩ <;>
    (intro e; subst e; revert h; decide)

theorem readDigit_cons {c : Char} (h : c.isDigit = true) (cs : List Char) :
    readDigit (c :: cs) = some (digitVal c, cs) := by simp [readDigit, h]

theorem read2_cons {c1 c2 : Char} (h1 : c1.isDigit = true) (h2 : c2.isDigit = true)
    (cs : List Char) :
    read2 (c1 :: c2 :: cs) = some (10 * digitVal c1 + digitVal c2, cs) := by
  simp [read2, readDigit_cons, h1, h2]


theorem read4_cons {c1 c2 c3 c4 : Char} (h1 : c1.isDigit = true) (h2 : c2.isDigit = true)
    (h3 : c3.isDigit = true) (h4 : c4.isDigit = true) (cs : List Char) :
    read4 (c1 :: c2 :: c3 :: c4 :: cs) =
      some (100 * (10 * digitVal c1 + digitVal c2) + (10 * digitVal c3 + digitVal c4), cs) := by
  simp [read4, read2_cons, h1, h2, h3, h4]

theorem readNum2or1_two {valid2 valid1 : Nat → Bool} {c1 c2 : Char}
    (h1 : c1.isDigit = true) (h2 : c2.isDigit = true)
    (hv : valid2 (10 * digitVal c1 + digitVal c2) = true) (cs : List Char) :
    readNum2or1 valid2 valid1 (c1 :: c2 :: cs) =
      some (10 * digitVal c1 + digitVal c2, cs) := by
  simp [readNum2or1, h1, h2, hv]

theorem readLit_cons (c : Char) (cs : List Char) : readLit c (c :: cs) = some cs := by
  simp [readLit]

theorem readLitT_cons (cs : List Char) : readLitT ('T' :: cs) = some cs := by
  simp [readLitT]

theorem takeWhile_all_append {p : Char → Bool} :
    ∀ l r : Str, (∀ c ∈ l, p c = true) →
      (∀ c, r.head? = some c → p c = false) → (l ++ r).takeWhile p = l := by
  intro l r hl hr
  induction l with
  | nil =>
      cases r with
      | nil => rfl
      | cons c cs => simp [List.takeWhile_cons, hr c rfl]
  | cons c cs ih =>
      simp only [List.cons_append, List.takeWhile_cons, hl c (by simp), if_pos]
      rw [ih (fun d hd => hl d (by simp [hd]))]

theorem dropWhile_all_append {p : Char → Bool} :
    ∀ l r : Str, (∀ c ∈ l, p c = true) →
      (∀ c, r.head? = some c → p c = false) → (l ++ r).dropWhile p = r := by
  intro l r hl hr
  induction l with
  | nil =>
      cases r with
      | nil => rfl
      | cons c cs => simp [List.dropWhile_cons, hr c rfl]
  | cons c cs ih =>
      simp only [List.cons_append, List.dropWhile_cons, hl c (by simp), if_pos]
      exact ih (fun d hd => hl d (by simp [hd]))

theorem readFrac_append {frac : Str} (hfrac : ∀ c ∈ frac, c.isDigit = true)
    (hfne : frac ≠ []) (hflen : frac.length ≤ 6) (cs : List Char) :
    readFrac (frac ++ '+' :: cs) = some ('+' :: cs) := by
  unfold readFrac
  rw [takeWhile_all_append frac ('+' :: cs) hfrac
    (by intro c hc; simp at hc; subst hc; decide)]
  rw [dropWhile_all_append frac ('+' :: cs) hfrac
    (by intro c hc; simp at hc; subst hc; decide)]
  rw [if_pos ⟨List.length_pos.mpr hfne, hflen⟩]

theorem readZone_plus : readZoneEnd (str "+00:00") = some 0 := by decide


theorem plus_suffix : str "+00:00" = ['+', '0', '0', ':', '0', '0'] := by decide

theorem readMonth_two {c1 c2 : Char} (h1 : c1.isDigit = true) (h2 : c2.isDigit = true)
    (hv : 1 ≤ 10 * digitVal c1 + digitVal c2 ∧ 10 * digitVal c1 + digitVal c2 ≤ 12)
    (cs : List Char) :
    readNum2or1 (fun v => decide (1 ≤ v ∧ v ≤ 12)) (fun v => decide (1 ≤ v)) (c1 :: c2 :: cs) =
      some (10 * digitVal c1 + digitVal c2, cs) :=
  readNum2or1_two h1 h2 (decide_eq_true hv) cs

theorem readDay_two {c1 c2 : Char} (h1 : c1.isDigit = true) (h2 : c2.isDigit = true)
    (hv : 1 ≤ 10 * digitVal c1 + digitVal c2 ∧ 10 * digitVal c1 + digitVal c2 ≤ 31)
    (cs : List Char) :
    readNum2or1 (fun v => decide (1 ≤ v ∧ v ≤ 31)) (fun v => decide (1 ≤ v)) (c1 :: c2 :: cs) =
      some (10 * digitVal c1 + digitVal c2, cs) :=
  readNum2or1_two h1 h2 (decide_eq_true hv) cs

theorem readHour_two {c1 c2 : Char} (h1 : c1.isDigit = true) (h2 : c2.isDigit = true)
    (hv : 10 * digitVal c1 + digitVal c2 ≤ 23) (cs : List Char) :
    readNum2or1 (fun v => decide (v ≤ 23)) (fun _ => true) (c1 :: c2 :: cs) =
      some (10 * digitVal c1 + digitVal c2, cs) :=
  readNum2or1_two h1 h2 (decide_eq_true hv) cs

theorem readMin_two {c1 c2 : Char} (h1 : c1.isDigit = true) (h2 : c2.isDigit = true)
    (hv : 10 * digitVal c1 + digitVal c2 ≤ 59) (cs : List Char) :
    readNum2or1 (fun v => decide (v ≤ 59)) (fun _ => true) (c1 :: c2 :: cs) =
      some (10 * digitVal c1 + digitVal c2, cs) :=
  readNum2or1_two h1 h2 (decide_eq_true hv) cs

theorem readSec_two {c1 c2 : Char} (h1 : c1.isDigit = true) (h2 : c2.isDigit = true)
    (hv : 10 * digitVal c1 + digitVal c2 ≤ 61) (cs : List Char) :
    readNum2or1 (fun v => decide (v ≤ 61)) (fun _ => true) (c1 :: c2 :: cs) =
      some (10 * digitVal c1 + digitVal c2, cs) :=
  readNum2or1_two h1 h2 (decide_eq_true hv) cs

theorem readStamp_mk
    {y1 y2 y3 y4 m1 m2 dd1 dd2 hh1 hh2 mi1 mi2 ss1 ss2 : Char} {frac : Str}
    (hy1 : y1.isDigit = true) (hy2 : y2.isDigit = true)
    (hy3 : y3.isDigit = true) (hy4 : y4.isDigit = true)
    (hm1 : m1.isDigit = true) (hm2 : m2.isDigit = true)
    (hd1 : dd1.isDigit = true) (hd2 : dd2.isDigit = true)
    (hh1d : hh1.isDigit = true) (hh2d : hh2.isDigit = true)
    (hmi1 : mi1.isDigit = true) (hmi2 : mi2.isDigit = true)
    (hss1 : ss1.isDigit = true) (hss2 : ss2.isDigit = true)
    (hfrac : ∀ c ∈ frac, c.isDigit = true) (hfne : frac ≠ []) (hflen : frac.length ≤ 6)
    (hmo : 1 ≤ 10 * digitVal m1 + digitVal m2 ∧ 10 * digitVal m1 + digitVal m2 ≤ 12)
    (hda : 1 ≤ 10 * digitVal dd1 + digitVal dd2 ∧ 10 * digitVal dd1 + digitVal dd2 ≤ 31)
    (hho : 10 * digitVal hh1 + digitVal hh2 ≤ 23)
    (hmi : 10 * digitVal mi1 + digitVal mi2 ≤ 59)
    (hse : 10 * digitVal ss1 + digitVal ss2 ≤ 61) :
    readStamp (y1 :: y2 :: y3 :: y4 :: '-' :: m1 :: m2 :: '-' :: dd1 :: dd2 :: 'T' ::
        hh1 :: hh2 :: ':' :: mi1 :: mi2 :: ':' :: ss1 :: ss2 :: '.' ::
          (frac ++ str "+00:00"))
      = some (100 * (10 * digitVal y1 + digitVal y2) + (10 * digitVal y3 + digitVal y4),
          10 * digitVal m1 + digitVal m2, 10 * digitVal dd1 + digitVal dd2,
          10 * digitVal hh1 + digitVal hh2, 10 * digitVal mi1 + digitVal mi2,
          10 * digitVal ss1 + digitVal ss2, 0) := by
  rw [plus_suffix]
  unfold readStamp
  rw [show (frac ++ ['+', '0', '0', ':', '0', '0']) = frac ++ '+' :: ['0', '0', ':', '0', '0'] from rfl]
  simp only [read4_cons hy1 hy2 hy3 hy4, readLit_cons, readLitT_cons,
    readMonth_two hm1 hm2 hmo, readDay_two hd1 hd2 hda, readHour_two hh1d hh2d hho,
    readMin_two hmi1 hmi2 hmi, readSec_two hss1 hss2 hse,
    readFrac_append hfrac hfne hflen,
    Option.bind_eq_bind, Option.some_bind]
  rw [show readZoneEnd ('+' :: ['0', '0', ':', '0', '0']) = some 0 from by decide]
  rfl


theorem dropWhile_all_false {p : Char → Bool} :
    ∀ l : Str, (∀ c ∈ l, p c = false) → l.dropWhile p = l := by
  intro l h
  cases l with
  | nil => rfl
  | cons c cs => simp [List.dropWhile_cons, h c (by simp)]

theorem pyStrip_nows {l : Str} (h : ∀ c ∈ l, isPyWs c = false) : pyStrip l = l := by
  unfold pyStrip
  rw [dropWhile_all_false l h,
    dropWhile_all_false _ (fun c hc => h c (List.mem_reverse.mp hc)),
    List.reverse_reverse]

theorem digitsUAux_digits :
    ∀ (l : Str) (acc : Nat), (∀ c ∈ l, c.isDigit = true) →
      digitsUAux acc l = some (l.foldl (fun a c => 10 * a + digitVal c) acc) := by
  intro l
  induction l with
  | nil => intro acc h; rfl
  | cons c cs ih =>
      intro acc h
      have hc := h c (by simp)
      rw [digitsUAux.eq_def]
      simp only []
      rw [if_neg (digit_ne hc (by decide)), if_pos hc, List.foldl_cons]
      exact ih _ (fun d hd => h d (by simp [hd]))

theorem pyInt_four_digits {y1 y2 y3 y4 : Char}
    (h1 : y1.isDigit = true) (h2 : y2.isDigit = true)
    (h3 : y3.isDigit = true) (h4 : y4.isDigit = true) :
    pyInt [y1, y2, y3, y4] =
      some ((10 * (10 * (10 * digitVal y1 + digitVal y2) + digitVal y3) + digitVal y4 : Nat) :
        Int) := by
  unfold pyInt
  rw [pyStrip_nows (by
    intro c hc
    simp only [List.mem_cons, List.not_mem_nil, or_false] at hc
    rcases hc with rfl | rfl | rfl | rfl
    · exact digit_not_ws h1
    · exact digit_not_ws h2
    · exact digit_not_ws h3
    · exact digit_not_ws h4)]
  simp only [List.head?_cons, List.tail_cons, Option.some.injEq]
  rw [if_neg (digit_ne h1 (by decide)), if_neg (digit_ne h1 (by decide))]
  rw [digitsU, if_pos h1, digitsUAux_digits _ _ (by
    intro c hc
    simp only [List.mem_cons, List.not_mem_nil, or_false] at hc
    rcases hc with rfl | rfl | rfl
    · exact h2
    · exact h3
    · exact h4)]
  simp [List.foldl]

theorem pyReplaceZ_append_z {l : Str} (h : ∀ c ∈ l, c ≠ 'Z') :
    pyReplaceZ (l ++ ['Z']) = l ++ str "+00:00" := by
  induction l with
  | nil => rfl
  | cons c cs ih =>
      simp only [List.cons_append, pyReplaceZ, if_neg (h c (by simp)),
        List.singleton_append, List.cons.injEq, true_and]
      exact ih (fun d hd => h d (by simp [hd]))


theorem sanitize_rule4 {s : Str} {n : Int} (hne : s ≠ []) (hplus : s.head? ≠ some '+')
    (hlen : (s.takeWhile (fun c => c != '-')).length ≤ 4)
    (hint : pyInt (s.takeWhile (fun c => c != '-')) = some n) (hbound : n ≤ 9999) :
    sanitize_datetime s =
      (if pyStrptimeValid (pyReplaceZ s) then some (pyReplaceZ s) else none) := by
  simp only [sanitize_datetime]
  rw [if_neg hne, if_neg hplus,
    if_neg (by omega : ¬(4 < (s.takeWhile (fun c => c != '-')).length)), hint]
  simp only []
  rw [if_neg (by omega : ¬(9999 < n))]

theorem daysInMonth_le_31 (y mo : Nat) : daysInMonth y mo ≤ 31 := by
  unfold daysInMonth
  split_ifs <;> omega


/-- All-ASCII strings: the domain on which the `int()` and strict-parse
models are exact.  CPython's `\d` and `int()` additionally accept Unicode
decimal digits, which are outside this embedding, so the sanitizer rules
that equate against the model's parse outcome are stated on this
domain. -/
def isAsciiStr (s : Str) : Prop := ∀ c ∈ s, c.toNat < 128

/-- C4: the timestamp sanitizer applies its rules in order: empty input
and a leading `+` yield null; a year component longer than four characters
or numerically above 9999 yields null; otherwise (on the all-ASCII domain
where the parse model is exact) the string with `Z` substituted by
`+00:00` is strictly parsed, null on failure and the substituted string on
success — in particular an unparseable year also yields null; and every
calendar-valid timestamp of the pattern with a trailing `Z` round-trips to
itself with `Z` replaced by `+00:00`. -/
theorem C4_sanitize_datetime_rules :
    (sanitize_datetime [] = none) ∧
    (∀ cs : Str, sanitize_datetime ('+' :: cs) = none) ∧
    (∀ s : Str, s ≠ [] → s.head? ≠ some '+' →
      (4 < (s.takeWhile (fun c => c != '-')).length ∨
        (∃ n : Int, pyInt (s.takeWhile (fun c => c != '-')) = some n ∧ 9999 < n)) →
      sanitize_datetime s = none) ∧
    (∀ s : Str, isAsciiStr s → s ≠ [] → s.head? ≠ some '+' →
      (s.takeWhile (fun c => c != '-')).length ≤ 4 →
      pyInt (s.takeWhile (fun c => c != '-')) = none →
      sanitize_datetime s = none) ∧
    (∀ (s : Str) (n : Int), isAsciiStr s → s ≠ [] → s.head? ≠ some '+' →
      (s.takeWhile (fun c => c != '-')).length ≤ 4 →
      pyInt (s.takeWhile (fun c => c != '-')) = some n → n ≤ 9999 →
      sanitize_datetime s =
        (if pyStrptimeValid (pyReplaceZ s) then some (pyReplaceZ s) else none)) ∧
    (∀ (y1 y2 y3 y4 m1 m2 dd1 dd2 hh1 hh2 mi1 mi2 ss1 ss2 : Char) (frac : Str),
      y1.isDigit = true → y2.isDigit = true → y3.isDigit = true → y4.isDigit = true →
      m1.isDigit = true → m2.isDigit = true → dd1.isDigit = true → dd2.isDigit = true →
      hh1.isDigit = true → hh2.isDigit = true → mi1.isDigit = true → mi2.isDigit = true →
      ss1.isDigit = true → ss2.isDigit = true →
      (∀ c ∈ frac, c.isDigit = true) → frac ≠ [] → frac.length ≤ 6 →
      1 ≤ 100 * (10 * digitVal y1 + digitVal y2) + (10 * digitVal y3 + digitVal y4) →
      1 ≤ 10 * digitVal m1 + digitVal m2 → 10 * digitVal m1 + digitVal m2 ≤ 12 →
      1 ≤ 10 * digitVal dd1 + digitVal dd2 →
      10 * digitVal dd1 + digitVal dd2 ≤
        daysInMonth
          (100 * (10 * digitVal y1 + digitVal y2) + (10 * digitVal y3 + digitVal y4))
          (10 * digitVal m1 + digitVal m2) →
      10 * digitVal hh1 + digitVal hh2 ≤ 23 →
      10 * digitVal mi1 + digitVal mi2 ≤ 59 →
      10 * digitVal ss1 + digitVal ss2 ≤ 59 →
      sanitize_datetime
          ([y1, y2, y3, y4, '-', m1, m2, '-', dd1, dd2, 'T', hh1, hh2, ':',
            mi1, mi2, ':', ss1, ss2, '.'] ++ frac ++ ['Z']) =
        some ([y1, y2, y3, y4, '-', m1, m2, '-', dd1, dd2, 'T', hh1, hh2, ':',
            mi1, mi2, ':', ss1, ss2, '.'] ++ frac ++ str "+00:00")) := by
  refine ⟨rfl, ?_, ?_, ?_, ?_, ?_⟩
  · intro cs
    simp [sanitize_datetime]
  · intro s hne hplus hbad
    simp only [sanitize_datetime]
    rw [if_neg hne, if_neg hplus]
    by_cases hlen : 4 < (s.takeWhile (fun c => c != '-')).length
    · rw [if_pos hlen]
    · rw [if_neg hlen]
      rcases hbad with hbad | ⟨n, hn, hgt⟩
      · exact absurd hbad hlen
      · rw [hn]
        simp only []
        rw [if_pos hgt]
  · intro s _ hne hplus hlen hnone
    simp only [sanitize_datetime]
    rw [if_neg hne, if_neg hplus, if_neg (by omega), hnone]
  · intro s n _ hne hplus hlen hint hbound
    exact sanitize_rule4 hne hplus hlen hint hbound
  · intro y1 y2 y3 y4 m1 m2 dd1 dd2 hh1 hh2 mi1 mi2 ss1 ss2 frac
    intro hy1 hy2 hy3 hy4 hm1 hm2 hd1 hd2 hh1d hh2d hmi1 hmi2 hss1 hss2
    intro hfrac hfne hflen hY hmo1 hmo2 hda1 hdim hho hmi hse
    have hb1 : digitVal y1 ≤ 9 := by
      have := char_isDigit_iff.mp hy1; unfold digitVal; omega
    have hb2 : digitVal y2 ≤ 9 := by
      have := char_isDigit_iff.mp hy2; unfold digitVal; omega
    have hb3 : digitVal y3 ≤ 9 := by
      have := char_isDigit_iff.mp hy3; unfold digitVal; omega
    have hb4 : digitVal y4 ≤ 9 := by
      have := char_isDigit_iff.mp hy4; unfold digitVal; omega
    have htake : (([y1, y2, y3, y4, '-', m1, m2, '-', dd1, dd2, 'T', hh1, hh2, ':',
        mi1, mi2, ':', ss1, ss2, '.'] ++ frac ++ ['Z']).takeWhile (fun c => c != '-'))
        = [y1, y2, y3, y4] := by
      rw [show ([y1, y2, y3, y4, '-', m1, m2, '-', dd1, dd2, 'T', hh1, hh2, ':',
          mi1, mi2, ':', ss1, ss2, '.'] ++ frac ++ ['Z'])
        = [y1, y2, y3, y4] ++ ('-' :: (m1 :: m2 :: '-' :: dd1 :: dd2 :: 'T' :: hh1 :: hh2 ::
            ':' :: mi1 :: mi2 :: ':' :: ss1 :: ss2 :: '.' :: (frac ++ ['Z']))) from rfl]
      refine takeWhile_all_append _ _ ?_ ?_
      · intro c hc
        simp only [List.mem_cons, List.not_mem_nil, or_false] at hc
        rcases hc with rfl | rfl | rfl | rfl <;>
          (simp only [bne_iff_ne, ne_eq, decide_eq_true_eq]
           exact digit_ne (by assumption) (by decide))
      · intro c hc
        simp only [List.head?_cons, Option.some.injEq] at hc
        subst hc; decide
    rw [sanitize_rule4 (by simp) (by
        simp only [List.cons_append, List.head?_cons, ne_eq, Option.some.injEq]
        exact digit_ne hy1 (by decide))
      (by rw [htake]; exact Nat.le_refl 4)
      (by rw [htake]; exact pyInt_four_digits hy1 hy2 hy3 hy4)
      (by omega)]
    have hzfree : ∀ c ∈ ([y1, y2, y3, y4, '-', m1, m2, '-', dd1, dd2, 'T', hh1, hh2, ':',
        mi1, mi2, ':', ss1, ss2, '.'] ++ frac), c ≠ 'Z' := by
      intro c hc
      rw [List.mem_append] at hc
      rcases hc with hc | hc
      · simp only [List.mem_cons, List.not_mem_nil, or_false] at hc
        rcases hc with rfl | rfl | rfl | rfl | rfl | rfl | rfl | rfl | rfl | rfl | rfl |
          rfl | rfl | rfl | rfl | rfl | rfl | rfl | rfl | rfl <;>
          first
          | decide
          | exact digit_ne (by assumption) (by decide)
      · exact digit_ne (hfrac c hc) (by decide)
    have hrepl : pyReplaceZ ([y1, y2, y3, y4, '-', m1, m2, '-', dd1, dd2, 'T', hh1, hh2, ':',
        mi1, mi2, ':', ss1, ss2, '.'] ++ frac ++ ['Z'])
        = ([y1, y2, y3, y4, '-', m1, m2, '-', dd1, dd2, 'T', hh1, hh2, ':',
            mi1, mi2, ':', ss1, ss2, '.'] ++ frac) ++ str "+00:00" := by
      exact pyReplaceZ_append_z hzfree
    rw [hrepl, List.append_assoc]
    simp only [List.cons_append, List.nil_append]
    have hvalid : pyStrptimeValid (y1 :: y2 :: y3 :: y4 :: '-' :: m1 :: m2 :: '-' :: dd1 ::
        dd2 :: 'T' :: hh1 :: hh2 :: ':' :: mi1 :: mi2 :: ':' :: ss1 :: ss2 :: '.' ::
        (frac ++ str "+00:00")) = true := by
      unfold pyStrptimeValid
      rw [readStamp_mk hy1 hy2 hy3 hy4 hm1 hm2 hd1 hd2 hh1d hh2d hmi1 hmi2 hss1 hss2
        hfrac hfne hflen ⟨hmo1, hmo2⟩ ⟨hda1, by
          have := daysInMonth_le_31
            (100 * (10 * digitVal y1 + digitVal y2) + (10 * digitVal y3 + digitVal y4))
            (10 * digitVal m1 + digitVal m2)
          omega⟩ hho hmi (by omega)]
      simp only []
      rw [decide_eq_true hY, decide_eq_true hdim, decide_eq_true hse]
      rfl
    rw [if_pos hvalid]


/-! ### Python dicts -/

/-- A Python dict: an insertion-ordered association list whose keys are
unique by construction; inserting an existing key updates it in place. -/
def pyInsert {α : Type} : List (Str × α) → Str → α → List (Str × α)
  | [], k, v => [(k, v)]
  | (k0, v0) :: rest, k, v =>
      if k0 = k then (k, v) :: rest else (k0, v0) :: pyInsert rest k v

/-- Dict lookup (first match). -/
def pyGet {α : Type} : List (Str × α) → Str → Option α
  | [], _ => none
  | (k0, v0) :: rest, k => if k0 = k then some v0 else pyGet rest k

/-! ### Custom Field Resolver (connector.py lines 134-175) and schema (177-211) -/

/-- One entry of `field_types`: the mapped Fivetran type and the original
external name (lines 169-172). -/
structure FieldInfo where
  type : Str
  original_name : Str
deriving DecidableEq, Repr

/-- The `type_mapping` dict with `.get(loops_type, "STRING")` (lines
152-158, 170). -/
def type_mapping (loops_type : Str) : Str :=
  if loops_type = str "string" then str "STRING"
  else if loops_type = str "number" then str "DOUBLE"
  else if loops_type = str "boolean" then str "BOOLEAN"
  else if loops_type = str "date" then str "UTC_DATETIME"
  else str "STRING"

/-- The loop of `fetch_custom_fields` over the fetched descriptors
(lines 163-173). -/
def fetchCustomFieldsLoop :
    List (Str × Str) → List (Str × FieldInfo) → List (Str × Str) →
      Except Str (List (Str × FieldInfo) × List (Str × Str))
  | [], field_types, field_mapping => .ok (field_types, field_mapping)
  | (original_key, loops_type) :: rest, field_types, field_mapping => do
      let normalized_key ← normalize_field_name original_key
      fetchCustomFieldsLoop rest
        (pyInsert field_types normalized_key ⟨type_mapping loops_type, original_key⟩)
        (pyInsert field_mapping original_key normalized_key)

/-- `fetch_custom_fields` (lines 134-175): the HTTP payload is passed in as
the list of `(key, type)` descriptors. -/
def fetch_custom_fields (payload : List (Str × Str)) :
    Except Str (List (Str × FieldInfo) × List (Str × Str)) :=
  fetchCustomFieldsLoop payload [] []

/-- The standard columns of the `audience` table (lines 189-197), in
insertion order. -/
def standardColumns : List (Str × Str) :=
  [(str "email", str "STRING"), (str "first_name", str "STRING"),
   (str "last_name", str "STRING"), (str "created_at", str "UTC_DATETIME"),
   (str "updated_at", str "UTC_DATETIME"), (str "unsubscribed", str "BOOLEAN"),
   (str "user_group", str "STRING")]

/-- The column map declared by `schema` (lines 188-201): custom fields are
written into the dict after the standard columns, overwriting on a name
collision. -/
def schemaColumns (payload : List (Str × Str)) : Except Str (List (Str × Str)) := do
  let (custom_fields, _) ← fetch_custom_fields payload
  .ok (custom_fields.foldl (fun cols fi => pyInsert cols fi.1 fi.2.type) standardColumns)

/-! ### Record Decoder (connector.py lines 264-326) -/

/-- A decoded record value: Python `str`, `bool`, `float` or `None`.  A
float's numeric value matters to no claim, so the accepted literal is
carried instead of the parsed number. -/
inductive Value where
  | vStr (s : Str)
  | vBool (b : Bool)
  | vFloat (lit : Str)
  | vNone
deriving DecidableEq, Repr

/-- `standard_mapping` (lines 276-284), in order. -/
def standard_mapping : List (Str × Str) :=
  [(str "email", str "email"), (str "firstName", str "first_name"),
   (str "lastName", str "last_name"), (str "createdAt", str "created_at"),
   (str "updatedAt", str "updated_at"), (str "unsubscribed", str "unsubscribed"),
   (str "userGroup", str "user_group")]

/-- `headers.index(x)`; callers only use it when `x ∈ headers`. -/
def pyIndex (l : List Str) (x : Str) : Nat :=
  match l with
  | [] => 0
  | y :: ys => if y = x then 0 else pyIndex ys x + 1

/-- `field_indices` (lines 272-293): standard fields first, then the
custom-field mapping, keeping only names present in the header row. -/
def buildFieldIndices (headers : List Str) (field_mapping : List (Str × Str)) :
    List (Str × Nat) :=
  let fi := standard_mapping.foldl
    (fun m p => if p.1 ∈ headers then pyInsert m p.2 (pyIndex headers p.1) else m) []
  field_mapping.foldl
    (fun m p => if p.1 ∈ headers then pyInsert m p.2 (pyIndex headers p.1) else m) fi

/-- `row[i]`: raises IndexError when the row is too short. -/
def pyListGet (row : List Str) (i : Nat) : Except Str Str :=
  match row.get? i with
  | some v => .ok v
  | none => .error (str "IndexError: list index out of range")

/-- A string-typed standard field (email, first_name, last_name,
user_group): the cell verbatim, or `""` when the column is absent. -/
def standardStr (fi : List (Str × Nat)) (row : List Str) (key : Str) :
    Except Str Value :=
  match pyGet fi key with
  | some i => (pyListGet row i).map Value.vStr
  | none => .ok (Value.vStr [])

/-- A datetime standard field (lines 308-309): when the column is present
the cell is read (this can raise IndexError); a truthy cell goes through
`sanitize_datetime`, otherwise `None` is passed, which sanitizes to
`None`. -/
def standardDatetime (fi : List (Str × Nat)) (row : List Str) (key : Str) :
    Except Str Value :=
  match pyGet fi key with
  | some i => (pyListGet row i).map (fun cell =>
      if cell ≠ [] then
        match sanitize_datetime cell with
        | some s => Value.vStr s
        | none => Value.vNone
      else Value.vNone)
  | none => .ok Value.vNone

/-- The `unsubscribed` field (line 310): case-insensitive comparison with
`"true"`; `False` when the column is absent. -/
def standardBool (fi : List (Str × Nat)) (row : List Str) (key : Str) :
    Except Str Value :=
  match pyGet fi key with
  | some i => (pyListGet row i).map (fun cell =>
      Value.vBool (decide (pyLower cell = str "true")))
  | none => .ok (Value.vBool false)

/-- The standard-field record literal (lines 304-312), in dict order. -/
def decodeStandard (fi : List (Str × Nat)) (row : List Str) :
    Except Str (List (Str × Value)) := do
  let email ← standardStr fi row (str "email")
  let first_name ← standardStr fi row (str "first_name")
  let last_name ← standardStr fi row (str "last_name")
  let created_at ← standardDatetime fi row (str "created_at")
  let updated_at ← standardDatetime fi row (str "updated_at")
  let unsubscribed ← standardBool fi row (str "unsubscribed")
  let user_group ← standardStr fi row (str "user_group")
  .ok [(str "email", email), (str "first_name", first_name),
       (str "last_name", last_name), (str "created_at", created_at),
       (str "updated_at", updated_at), (str "unsubscribed", unsubscribed),
       (str "user_group", user_group)]

/-- A custom-field cell by declared type (lines 318-326): `float(value)`
raises ValueError on a non-empty unparseable cell. -/
def decodeCustomValue (field_type : Str) (value : Str) : Except Str Value :=
  if field_type = str "BOOLEAN" then
    .ok (.vBool (if value ≠ [] then decide (pyLower value = str "true") else false))
  else if field_type = str "DOUBLE" then
    (if value ≠ [] then
      (if pyFloatParses value then .ok (.vFloat value)
       else .error (str "ValueError: could not convert string to float"))
     else .ok .vNone)
  else if field_type = str "UTC_DATETIME" then
    .ok (match sanitize_datetime value with
      | some s => .vStr s
      | none => .vNone)
  else .ok (.vStr value)

/-- One iteration of the custom-field loop (lines 315-326). -/
def addCustomField (fi : List (Str × Nat)) (row : List Str)
    (record : List (Str × Value)) (entry : Str × FieldInfo) :
    Except Str (List (Str × Value)) :=
  match pyGet fi entry.1 with
  | none => .ok record
  | some i => do
      let value ← pyListGet row i
      let v ← decodeCustomValue entry.2.type value
      .ok (pyInsert record entry.1 v)

/-- One CSV data row to one record (lines 302-326). -/
def decodeRow (custom_fields : List (Str × FieldInfo)) (fi : List (Str × Nat))
    (row : List Str) : Except Str (List (Str × Value)) := do
  let rec0 ← decodeStandard fi row
  List.foldlM (addCustomField fi row) rec0 custom_fields

/-! ### Batched Sync Driver (connector.py lines 297-356) -/

/-- An operation yielded by `update`.  The checkpoint's wall-clock
`last_sync` value carries no claim-relevant data and is dropped; the
cumulative `records_processed` count is kept. -/
inductive Op where
  | upsert (table : Str) (record : List (Str × Value))
  | checkpoint (records_processed : Nat)
deriving DecidableEq, Repr

def batch_size : Nat := 1000

/-- The batching loop of `update` (lines 302-354) on the decoded record
stream: records accumulate in `current_batch`; on reaching `batch_size` the
batch is emitted as upserts in order followed by one checkpoint, and
cleared; after the stream ends, a remaining partial batch is emitted
without its own checkpoint, and one final checkpoint is always emitted
(the upsert-map of an empty final batch is `[]`, so the `if current_batch:`
guard around the final flush is the same unconditionally). -/
def driverRun :
    List (List (Str × Value)) → List (List (Str × Value)) → Nat → List Op
  | [], current_batch, total_records =>
      let total := if current_batch.isEmpty then total_records
        else total_records + current_batch.length
      current_batch.map (Op.upsert (str "audience")) ++ [Op.checkpoint total]
  | record :: rest, current_batch, total_records =>
      let batch2 := current_batch ++ [record]
      if batch_size ≤ batch2.length then
        batch2.map (Op.upsert (str "audience")) ++
          [Op.checkpoint (total_records + batch2.length)] ++
          driverRun rest [] (total_records + batch2.length)
      else driverRun rest batch2 total_records

/-- The same loop fused with row decoding, as the source interleaves them;
a decode error aborts the run. -/
def updateLoop (custom_fields : List (Str × FieldInfo)) (fi : List (Str × Nat)) :
    List (List Str) → List (List (Str × Value)) → Nat → Except Str (List Op)
  | [], current_batch, total_records =>
      let total := if current_batch.isEmpty then total_records
        else total_records + current_batch.length
      .ok (current_batch.map (Op.upsert (str "audience")) ++ [Op.checkpoint total])
  | row :: rest, current_batch, total_records => do
      let record ← decodeRow custom_fields fi row
      let batch2 := current_batch ++ [record]
      if batch_size ≤ batch2.length then do
        let ops ← updateLoop custom_fields fi rest [] (total_records + batch2.length)
        .ok (batch2.map (Op.upsert (str "audience")) ++
          [Op.checkpoint (total_records + batch2.length)] ++ ops)
      else updateLoop custom_fields fi rest batch2 total_records

/-- `update` (lines 240-356) downstream of the fetched payloads: the first
CSV row is the header row; the following rows stream through decoding and
batching. -/
def updateRun (payload : List (Str × Str)) (csvRows : List (List Str)) :
    Except Str (List Op) :=
  match csvRows with
  | [] => .error (str "StopIteration")
  | headers :: rows => do
      let (custom_fields, field_mapping) ← fetch_custom_fields payload
      let fi := buildFieldIndices headers field_mapping
      updateLoop custom_fields fi rows [] 0

/-- C4 witness: concrete evaluations of the strict-parse rule (an invalid
month nulls) and of the round-trip rule. -/
theorem C4_sanitize_datetime_rules_witness :
    (sanitize_datetime (str "2023-13-01T00:00:00.000000Z") =
      (if pyStrptimeValid (pyReplaceZ (str "2023-13-01T00:00:00.000000Z")) then
        some (pyReplaceZ (str "2023-13-01T00:00:00.000000Z"))
      else none)) ∧
    sanitize_datetime (str "2023-04-05T06:07:08.123456Z") =
      some (str "2023-04-05T06:07:08.123456+00:00") :=
  ⟨C4_sanitize_datetime_rules.2.2.2.2.1 (str "2023-13-01T00:00:00.000000Z") 2023
    (by unfold isAsciiStr; decide) (by decide) (by decide) (by decide) (by decide)
    (by decide),
   C4_sanitize_datetime_rules.2.2.2.2.2 '2' '0' '2' '3' '0' '4' '0' '5' '0' '6'
    '0' '7' '0' '8' (str "123456") (by decide) (by decide) (by decide) (by decide)
    (by decide) (by decide) (by decide) (by decide) (by decide) (by decide)
    (by decide) (by decide) (by decide) (by decide) (by decide) (by decide)
    (by decide) (by decide) (by decide) (by decide) (by decide) (by decide)
    (by decide) (by decide) (by decide)⟩

/-! ### Decoder lemmas -/

theorem except_ok_bind {α β γ : Type} (a : α) (f : α → Except γ β) :
    ((Except.ok a : Except γ α) >>= f) = f a := rfl

theorem pyGet_pyInsert {α : Type} (m : List (Str × α)) (k key : Str) (v : α) :
    pyGet (pyInsert m k v) key = if k = key then some v else pyGet m key := by
  induction m with
  | nil => simp [pyInsert, pyGet]
  | cons p rest ih =>
      obtain ⟨k0, v0⟩ := p
      by_cases h0 : k0 = k
      · subst h0
        by_cases h1 : k0 = key <;> simp [pyInsert, pyGet, h1]
      · by_cases h1 : k0 = key
        · have h2 : ¬(k = key) := fun h => h0 (h1.trans h.symm)
          have h3 : ¬(key = k) := fun h => h0 (h1.trans h)
          simp [pyInsert, pyGet, h0, h1, h2, h3]
        · simp [pyInsert, pyGet, h0, h1, ih]

theorem pyListGet_lt {row : List Str} {i : Nat} (h : i < row.length) :
    pyListGet row i = .ok (row.get ⟨i, h⟩) := by
  unfold pyListGet
  rw [List.get?_eq_get h]

theorem foldlM_ok {α β : Type} {f : β → α → Except Str β} :
    ∀ (l : List α), (∀ a ∈ l, ∀ b : β, ∃ b2, f b a = .ok b2) →
      ∀ b0 : β, ∃ bR, List.foldlM f b0 l = .ok bR := by
  intro l
  induction l with
  | nil => intro _ b0; exact ⟨b0, rfl⟩
  | cons a rest ih =>
      intro h b0
      obtain ⟨b1, hb1⟩ := h a (List.mem_cons_self a rest) b0
      obtain ⟨bR, hbR⟩ := ih (fun x hx b => h x (List.mem_cons_of_mem a hx) b) b1
      refine ⟨bR, ?_⟩
      rw [List.foldlM_cons, hb1]
      exact hbR

theorem foldlM_invariant {α β : Type} {f : β → α → Except Str β} {P : β → Prop} :
    ∀ (l : List α) (b0 bR : β),
      (∀ a ∈ l, ∀ b1 b2, f b1 a = .ok b2 → P b1 → P b2) →
      List.foldlM f b0 l = .ok bR → P b0 → P bR := by
  intro l
  induction l with
  | nil =>
      intro b0 bR _ hrun hP
      rw [List.foldlM_nil] at hrun
      have heq : (Except.ok b0 : Except Str β) = .ok bR := hrun
      cases heq
      exact hP
  | cons a rest ih =>
      intro b0 bR hstep hrun hP
      rw [List.foldlM_cons] at hrun
      cases hfa : f b0 a with
      | error e =>
          rw [hfa] at hrun
          exact absurd (show (Except.error e : Except Str β) = .ok bR from hrun)
            (by intro h; cases h)
      | ok b1 =>
          rw [hfa] at hrun
          have hrun2 : List.foldlM f b1 rest = .ok bR := hrun
          exact ih b1 bR (fun x hx => hstep x (List.mem_cons_of_mem a hx)) hrun2
            (hstep a (List.mem_cons_self a rest) b0 b1 hfa hP)

theorem standardStr_ok {fi : List (Str × Nat)} {row : List Str}
    (hidx : ∀ k i, pyGet fi k = some i → i < row.length) (key : Str) :
    ∃ s, standardStr fi row key = .ok (.vStr s) := by
  cases h : pyGet fi key with
  | none => exact ⟨[], by unfold standardStr; rw [h]⟩
  | some i =>
      have hlt := hidx key i h
      refine ⟨row.get ⟨i, hlt⟩, ?_⟩
      unfold standardStr
      rw [h]
      simp only []
      rw [pyListGet_lt hlt]
      rfl

theorem standardDatetime_ok {fi : List (Str × Nat)} {row : List Str}
    (hidx : ∀ k i, pyGet fi k = some i → i < row.length) (key : Str) :
    ∃ v, standardDatetime fi row key = .ok v := by
  cases h : pyGet fi key with
  | none => exact ⟨_, by unfold standardDatetime; rw [h]⟩
  | some i =>
      have hlt := hidx key i h
      refine ⟨if row.get ⟨i, hlt⟩ ≠ [] then
          match sanitize_datetime (row.get ⟨i, hlt⟩) with
          | some s => Value.vStr s
          | none => Value.vNone
        else Value.vNone, ?_⟩
      unfold standardDatetime
      rw [h]
      simp only []
      rw [pyListGet_lt hlt]
      rfl

theorem standardBool_ok {fi : List (Str × Nat)} {row : List Str}
    (hidx : ∀ k i, pyGet fi k = some i → i < row.length) (key : Str) :
    ∃ v, standardBool fi row key = .ok v := by
  cases h : pyGet fi key with
  | none => exact ⟨_, by unfold standardBool; rw [h]⟩
  | some i =>
      have hlt := hidx key i h
      refine ⟨Value.vBool (decide (pyLower (row.get ⟨i, hlt⟩) = str "true")), ?_⟩
      unfold standardBool
      rw [h]
      simp only []
      rw [pyListGet_lt hlt]
      rfl

theorem decodeStandard_ok {fi : List (Str × Nat)} {row : List Str}
    (hidx : ∀ k i, pyGet fi k = some i → i < row.length) :
    ∃ r, decodeStandard fi row = .ok r := by
  obtain ⟨s1, h1⟩ := standardStr_ok hidx (str "email")
  obtain ⟨s2, h2⟩ := standardStr_ok hidx (str "first_name")
  obtain ⟨s3, h3⟩ := standardStr_ok hidx (str "last_name")
  obtain ⟨v4, h4⟩ := standardDatetime_ok hidx (str "created_at")
  obtain ⟨v5, h5⟩ := standardDatetime_ok hidx (str "updated_at")
  obtain ⟨v6, h6⟩ := standardBool_ok hidx (str "unsubscribed")
  obtain ⟨s7, h7⟩ := standardStr_ok hidx (str "user_group")
  refine ⟨[(str "email", .vStr s1), (str "first_name", .vStr s2),
    (str "last_name", .vStr s3), (str "created_at", v4), (str "updated_at", v5),
    (str "unsubscribed", v6), (str "user_group", .vStr s7)], ?_⟩
  simp only [decodeStandard, h1, h2, h3, h4, h5, h6, h7]
  rfl

theorem addCustomField_ok {custom_fields : List (Str × FieldInfo)}
    {fi : List (Str × Nat)} {row : List Str}
    (hidx : ∀ k i, pyGet fi k = some i → i < row.length)
    (hnum : ∀ k info, (k, info) ∈ custom_fields → info.type = str "DOUBLE" →
      ∀ i, pyGet fi k = some i → ∀ cell, row.get? i = some cell → cell ≠ [] →
        pyFloatParses cell = true) :
    ∀ entry ∈ custom_fields, ∀ rec : List (Str × Value),
      ∃ rec2, addCustomField fi row rec entry = .ok rec2 := by
  intro entry hentry rec
  cases hfi : pyGet fi entry.1 with
  | none => exact ⟨rec, by unfold addCustomField; rw [hfi]⟩
  | some i =>
      have hlt := hidx entry.1 i hfi
      have hget := List.get?_eq_get hlt
      have hval : ∃ v, decodeCustomValue entry.2.type (row.get ⟨i, hlt⟩) = .ok v := by
        unfold decodeCustomValue
        by_cases hb : entry.2.type = str "BOOLEAN"
        · rw [if_pos hb]; exact ⟨_, rfl⟩
        · rw [if_neg hb]
          by_cases hdo : entry.2.type = str "DOUBLE"
          · rw [if_pos hdo]
            by_cases hc : row.get ⟨i, hlt⟩ ≠ []
            · rw [if_pos hc,
                if_pos (hnum entry.1 entry.2 hentry hdo i hfi _ hget hc)]
              exact ⟨_, rfl⟩
            · rw [if_neg hc]; exact ⟨_, rfl⟩
          · rw [if_neg hdo]
            by_cases hdt : entry.2.type = str "UTC_DATETIME"
            · rw [if_pos hdt]; exact ⟨_, rfl⟩
            · rw [if_neg hdt]; exact ⟨_, rfl⟩
      obtain ⟨v, hv⟩ := hval
      refine ⟨pyInsert rec entry.1 v, ?_⟩
      unfold addCustomField
      rw [hfi]
      simp only []
      rw [pyListGet_lt hlt]
      simp only [except_ok_bind]
      rw [hv]
      rfl

/-- C1 (amended): provided every mapped column index is within the row,
decoding a malformed optional value never raises for boolean and timestamp
typed fields (they degrade to `false` / null), and the row is emitted; but
a non-empty Number-typed cell must parse as a float, otherwise the decoder
raises and the run aborts. -/
theorem C1_decode_degrades (custom_fields : List (Str × FieldInfo))
    (fi : List (Str × Nat)) (row : List Str)
    (hidx : ∀ k i, pyGet fi k = some i → i < row.length)
    (hnum : ∀ k info, (k, info) ∈ custom_fields → info.type = str "DOUBLE" →
      ∀ i, pyGet fi k = some i → ∀ cell, row.get? i = some cell → cell ≠ [] →
        pyFloatParses cell = true) :
    ∃ record, decodeRow custom_fields fi row = .ok record := by
  obtain ⟨rec0, h0⟩ := decodeStandard_ok hidx
  obtain ⟨recR, hR⟩ := foldlM_ok custom_fields
    (fun entry hentry rec => addCustomField_ok hidx hnum entry hentry rec) rec0
  refine ⟨recR, ?_⟩
  unfold decodeRow
  rw [h0]
  simp only [except_ok_bind]
  exact hR

/-- C1 counterexample: with a Number-typed custom field whose cell is the
non-numeric text `abc`, the decoder raises `ValueError` (line 322 applies
`float` unguarded) and the run aborts instead of emitting the row. -/
theorem C1_number_cell_raises :
    updateRun [(str "score", str "number")]
        [[str "email", str "score"], [str "a", str "abc"]] =
      .error (str "ValueError: could not convert string to float") := rfl

/-- C1 witness: the amended theorem at a concrete row whose Number-typed
cell parses. -/
theorem C1_decode_degrades_witness :
    ∃ record,
      decodeRow [(str "score", ⟨str "DOUBLE", str "score"⟩)]
        [(str "email", 0), (str "score", 1)] [str "a", str "1.5"] = .ok record :=
  C1_decode_degrades _ _ _
    (by
      intro k i h
      simp only [pyGet] at h
      split at h
      · simp only [Option.some.injEq] at h; simp only [List.length_cons]; omega
      · split at h
        · simp only [Option.some.injEq] at h; simp only [List.length_cons]; omega
        · exact absurd h (by simp))
    (by
      intro k info hmem hdo i hi cell hcell hne
      simp only [List.mem_cons, List.not_mem_nil, or_false, Prod.mk.injEq] at hmem
      obtain ⟨rfl, rfl⟩ := hmem
      simp only [pyGet] at hi
      split at hi
      · exact absurd (by assumption : str "email" = str "score") (by decide)
      · split at hi
        · simp only [Option.some.injEq] at hi
          subst hi
          simp only [List.get?] at hcell
          cases hcell
          decide
        · exact absurd hi (by simp))

/-- C9: a data row with fewer cells than a mapped column index (here
`firstName` at index 1, row of length 1) makes the decoder raise IndexError
and abort the whole run instead of emitting the row with defaults. -/
theorem C9_short_row_aborts :
    updateRun [] [[str "email", str "firstName"], [str "a"]] =
      .error (str "IndexError: list index out of range") := rfl

/-! ### The identifying key field (C5) and custom-field overwrites (C10) -/

theorem except_bind_ok_elim {α β γ : Type} {x : Except γ α} {f : α → Except γ β} {b : β}
    (h : (x >>= f) = .ok b) : ∃ a, x = .ok a ∧ f a = .ok b := by
  cases x with
  | error e =>
      exact absurd (show (Except.error e : Except γ β) = .ok b from h)
        (by intro hh; cases hh)
  | ok a => exact ⟨a, rfl, h⟩

/-- `standardStr` only ever produces a string value, the empty string when
the column is absent. -/
theorem standardStr_shape {fi : List (Str × Nat)} {row : List Str} {key : Str}
    {v : Value} (h : standardStr fi row key = .ok v) :
    ∃ s, v = .vStr s ∧ (pyGet fi key = none → s = []) := by
  unfold standardStr at h
  cases hfi : pyGet fi key with
  | none =>
      rw [hfi] at h
      simp only [Except.ok.injEq] at h
      exact ⟨[], h.symm, fun _ => rfl⟩
  | some i =>
      rw [hfi] at h
      simp only [] at h
      cases hg : row.get? i with
      | none =>
          unfold pyListGet at h
          rw [hg] at h
          exact absurd h (by intro hh; cases hh)
      | some cell =>
          unfold pyListGet at h
          rw [hg] at h
          simp only [Except.map, Except.ok.injEq] at h
          exact ⟨cell, h.symm, fun hc => Option.noConfusion hc⟩

/-- The email entry of a decoded standard record. -/
theorem decodeStandard_email {fi : List (Str × Nat)} {row : List Str}
    {r : List (Str × Value)} (h : decodeStandard fi row = .ok r) :
    ∃ s, pyGet r (str "email") = some (.vStr s) ∧
      (pyGet fi (str "email") = none → s = []) := by
  unfold decodeStandard at h
  obtain ⟨v1, h1, h⟩ := except_bind_ok_elim h
  obtain ⟨v2, h2, h⟩ := except_bind_ok_elim h
  obtain ⟨v3, h3, h⟩ := except_bind_ok_elim h
  obtain ⟨v4, h4, h⟩ := except_bind_ok_elim h
  obtain ⟨v5, h5, h⟩ := except_bind_ok_elim h
  obtain ⟨v6, h6, h⟩ := except_bind_ok_elim h
  obtain ⟨v7, h7, h⟩ := except_bind_ok_elim h
  simp only [Except.ok.injEq] at h
  subst h
  obtain ⟨s, hs, habs⟩ := standardStr_shape h1
  subst hs
  exact ⟨s, by simp [pyGet], habs⟩

/-- Destructuring one custom-field iteration. -/
theorem addCustomField_elim {fi : List (Str × Nat)} {row : List Str}
    {rec rec2 : List (Str × Value)} {entry : Str × FieldInfo}
    (h : addCustomField fi row rec entry = .ok rec2) :
    (pyGet fi entry.1 = none ∧ rec2 = rec) ∨
    (∃ i cell v, pyGet fi entry.1 = some i ∧ row.get? i = some cell ∧
      decodeCustomValue entry.2.type cell = .ok v ∧ rec2 = pyInsert rec entry.1 v) := by
  unfold addCustomField at h
  cases hfi : pyGet fi entry.1 with
  | none =>
      rw [hfi] at h
      simp only [Except.ok.injEq] at h
      exact Or.inl ⟨rfl, h.symm⟩
  | some i =>
      rw [hfi] at h
      simp only [] at h
      obtain ⟨cell, hc, h⟩ := except_bind_ok_elim h
      obtain ⟨v, hv, h⟩ := except_bind_ok_elim h
      simp only [Except.ok.injEq] at h
      refine Or.inr ⟨i, cell, v, rfl, ?_, hv, h.symm⟩
      unfold pyListGet at hc
      cases hg : row.get? i with
      | none => rw [hg] at hc; exact absurd hc (by intro hh; cases hh)
      | some cell2 =>
          rw [hg] at hc
          simp only [Except.ok.injEq] at hc
          rw [hc]

/-- A String-typed custom value is the cell verbatim. -/
theorem decodeCustomValue_string {cell : Str} :
    decodeCustomValue (str "STRING") cell = .ok (.vStr cell) := by
  unfold decodeCustomValue
  rw [if_neg (by decide), if_neg (by decide), if_neg (by decide)]

/-- C5 counterexample: a Number-typed custom field that normalizes to
`email` with an empty cell makes the decoder emit the record with a null
key field. -/
theorem C5_custom_email_null :
    (decodeRow [(str "email", ⟨str "DOUBLE", str "email"⟩)]
        [(str "email", 0)] [[]]).map
      (fun record => pyGet record (str "email")) = .ok (some Value.vNone) := rfl

/-- C5 (amended): for every emitted record the key field is a string —
the empty string when the email column is absent from the headers —
provided no discovered custom field whose normalized name is `email` has a
non-String declared type; such a custom field overwrites the key (with null
for an empty Number or invalid Timestamp cell). -/
theorem C5_email_always_string (custom_fields : List (Str × FieldInfo))
    (fi : List (Str × Nat)) (row : List Str) (record : List (Str × Value))
    (hok : decodeRow custom_fields fi row = .ok record) :
    ((∀ info, (str "email", info) ∈ custom_fields → info.type = str "STRING") →
      ∃ s, pyGet record (str "email") = some (Value.vStr s)) ∧
    (pyGet fi (str "email") = none →
      pyGet record (str "email") = some (Value.vStr [])) := by
  unfold decodeRow at hok
  obtain ⟨rec0, hstd, hfold⟩ := except_bind_ok_elim hok
  obtain ⟨s0, hs0, hs0abs⟩ := decodeStandard_email hstd
  constructor
  · intro hemail
    refine @foldlM_invariant _ _ _
      (fun rec => ∃ s, pyGet rec (str "email") = some (Value.vStr s))
      custom_fields rec0 record ?_ hfold ⟨s0, hs0⟩
    intro entry hentry b1 b2 hstep hP
    obtain ⟨s, hPs⟩ := hP
    rcases addCustomField_elim hstep with ⟨_, rfl⟩ | ⟨i, cell, v, hfi, hcell, hv, rfl⟩
    · exact ⟨s, hPs⟩
    · rw [pyGet_pyInsert]
      by_cases hk : entry.1 = str "email"
      · rw [if_pos hk]
        have htype : entry.2.type = str "STRING" := by
          apply hemail entry.2
          rw [← hk]
          exact hentry
        rw [htype, decodeCustomValue_string] at hv
        simp only [Except.ok.injEq] at hv
        exact ⟨cell, by rw [← hv]⟩
      · rw [if_neg hk]
        exact ⟨s, hPs⟩
  · intro hnofi
    refine @foldlM_invariant _ _ _
      (fun rec => pyGet rec (str "email") = some (Value.vStr []))
      custom_fields rec0 record ?_ hfold
      (by simp only []; rw [hs0, hs0abs hnofi])
    intro entry hentry b1 b2 hstep hP
    rcases addCustomField_elim hstep with ⟨_, rfl⟩ | ⟨i, cell, v, hfi, hcell, hv, rfl⟩
    · exact hP
    · rw [pyGet_pyInsert]
      by_cases hk : entry.1 = str "email"
      · rw [hk] at hfi
        rw [hnofi] at hfi
        exact absurd hfi (by intro hh; cases hh)
      · rw [if_neg hk]
        exact hP

/-- C5 witness: the amended theorem at a concrete configuration. -/
theorem C5_email_always_string_witness :
    ((∀ info, (str "email", info) ∈
        [(str "email", (⟨str "STRING", str "email"⟩ : FieldInfo))] →
        info.type = str "STRING") →
      ∃ s, pyGet [(str "email", Value.vStr (str "a")),
        (str "first_name", Value.vStr []), (str "last_name", Value.vStr []),
        (str "created_at", Value.vNone), (str "updated_at", Value.vNone),
        (str "unsubscribed", Value.vBool false), (str "user_group", Value.vStr [])]
        (str "email") = some (Value.vStr s)) ∧
    (pyGet [(str "email", 0)] (str "email") = none →
      pyGet [(str "email", Value.vStr (str "a")),
        (str "first_name", Value.vStr []), (str "last_name", Value.vStr []),
        (str "created_at", Value.vNone), (str "updated_at", Value.vNone),
        (str "unsubscribed", Value.vBool false), (str "user_group", Value.vStr [])]
        (str "email") = some (Value.vStr [])) :=
  C5_email_always_string [(str "email", ⟨str "STRING", str "email"⟩)]
    [(str "email", 0)] [str "a"] _ rfl

/-! ### Custom fields overwrite standard columns (C10) -/

theorem pyInsert_keys_mem {α : Type} (m : List (Str × α)) (k : Str) (v : α) (key : Str) :
    key ∈ (pyInsert m k v).map Prod.fst ↔ key = k ∨ key ∈ m.map Prod.fst := by
  induction m with
  | nil =>
      simp only [show pyInsert ([] : List (Str × α)) k v = [(k, v)] from rfl,
        List.map_cons, List.map_nil, List.mem_cons, List.not_mem_nil, or_false]
  | cons p rest ih =>
      obtain ⟨k0, v0⟩ := p
      rw [show pyInsert ((k0, v0) :: rest) k v =
        (if k0 = k then (k, v) :: rest else (k0, v0) :: pyInsert rest k v) from rfl]
      by_cases h0 : k0 = k
      · subst h0
        rw [if_pos rfl]
        simp only [List.map_cons, List.mem_cons]
        constructor
        · rintro (rfl | hm)
          · exact Or.inl rfl
          · exact Or.inr (Or.inr hm)
        · rintro (rfl | rfl | hm)
          · exact Or.inl rfl
          · exact Or.inl rfl
          · exact Or.inr hm
      · rw [if_neg h0]
        simp only [List.map_cons, List.mem_cons, ih]
        constructor
        · rintro (rfl | rfl | hm)
          · exact Or.inr (Or.inl rfl)
          · exact Or.inl rfl
          · exact Or.inr (Or.inr hm)
        · rintro (rfl | rfl | hm)
          · exact Or.inr (Or.inl rfl)
          · exact Or.inl rfl
          · exact Or.inr (Or.inr hm)

theorem pyInsert_nodup {α : Type} {m : List (Str × α)} (k : Str) (v : α)
    (h : (m.map Prod.fst).Nodup) : ((pyInsert m k v).map Prod.fst).Nodup := by
  induction m with
  | nil =>
      simp only [show pyInsert ([] : List (Str × α)) k v = [(k, v)] from rfl,
        List.map_cons, List.map_nil]
      exact List.nodup_singleton k
  | cons p rest ih =>
      obtain ⟨k0, v0⟩ := p
      simp only [List.map_cons, List.nodup_cons] at h
      rw [show pyInsert ((k0, v0) :: rest) k v =
        (if k0 = k then (k, v) :: rest else (k0, v0) :: pyInsert rest k v) from rfl]
      by_cases h0 : k0 = k
      · subst h0
        rw [if_pos rfl]
        simp only [List.map_cons, List.nodup_cons]
        exact h
      · rw [if_neg h0]
        simp only [List.map_cons, List.nodup_cons]
        refine ⟨?_, ih h.2⟩
        rw [pyInsert_keys_mem]
        rintro (rfl | hmem)
        · exact h0 rfl
        · exact h.1 hmem

theorem fetchLoop_nodup :
    ∀ (payload : List (Str × Str)) (ft : List (Str × FieldInfo))
      (fm : List (Str × Str)) {cfs : List (Str × FieldInfo)}
      {mapping : List (Str × Str)},
      (ft.map Prod.fst).Nodup →
      fetchCustomFieldsLoop payload ft fm = .ok (cfs, mapping) →
      (cfs.map Prod.fst).Nodup := by
  intro payload
  induction payload with
  | nil =>
      intro ft fm cfs mapping h hrun
      unfold fetchCustomFieldsLoop at hrun
      simp only [Except.ok.injEq, Prod.mk.injEq] at hrun
      rw [← hrun.1]
      exact h
  | cons p rest ih =>
      intro ft fm cfs mapping h hrun
      obtain ⟨original_key, loops_type⟩ := p
      unfold fetchCustomFieldsLoop at hrun
      obtain ⟨nk, hnk, hrun⟩ := except_bind_ok_elim hrun
      exact ih _ _ (pyInsert_nodup _ _ h) hrun

/-- Custom fields whose key differs from `key` leave the column map at
`key` unchanged. -/
theorem foldl_insert_preserve {key : Str} :
    ∀ (cfs : List (Str × FieldInfo)) (base : List (Str × Str)),
      (∀ p ∈ cfs, p.1 ≠ key) →
      pyGet (cfs.foldl (fun cols fi => pyInsert cols fi.1 fi.2.type) base) key =
        pyGet base key := by
  intro cfs
  induction cfs with
  | nil => intro base _; rfl
  | cons p rest ih =>
      intro base h
      rw [List.foldl_cons, ih _ (fun q hq => h q (List.mem_cons_of_mem p hq)),
        pyGet_pyInsert, if_neg (h p (List.mem_cons_self p rest))]

/-- The column map at a custom field's key carries that field's type. -/
theorem foldl_insert_get {key : Str} {info : FieldInfo} :
    ∀ (cfs : List (Str × FieldInfo)) (base : List (Str × Str)),
      (cfs.map Prod.fst).Nodup → pyGet cfs key = some info →
      pyGet (cfs.foldl (fun cols fi => pyInsert cols fi.1 fi.2.type) base) key =
        some info.type := by
  intro cfs
  induction cfs with
  | nil => intro base _ habs; cases habs
  | cons p rest ih =>
      intro base hnodup hget
      obtain ⟨k0, i0⟩ := p
      simp only [List.map_cons, List.nodup_cons] at hnodup
      rw [List.foldl_cons]
      by_cases h0 : k0 = key
      · subst h0
        have hinfo : i0 = info := by
          unfold pyGet at hget
          rw [if_pos rfl] at hget
          exact Option.some.inj hget
        subst hinfo
        rw [foldl_insert_preserve rest _ (by
            intro q hq hqk
            exact hnodup.1 (hqk ▸ List.mem_map_of_mem Prod.fst hq)),
          pyGet_pyInsert, if_pos rfl]
      · unfold pyGet at hget
        rw [if_neg h0] at hget
        exact ih _ hnodup.2 hget

/-- Custom fields whose key differs from `key` leave the record at `key`
unchanged. -/
theorem foldlM_addCustom_preserve {fi : List (Str × Nat)} {row : List Str}
    {key : Str} (cfs : List (Str × FieldInfo))
    (rec result : List (Str × Value)) (hne : ∀ p ∈ cfs, p.1 ≠ key)
    (hrun : List.foldlM (addCustomField fi row) rec cfs = .ok result) :
    pyGet result key = pyGet rec key := by
  refine @foldlM_invariant _ _ _ (fun b => pyGet b key = pyGet rec key)
    cfs rec result ?_ hrun rfl
  intro entry hentry b1 b2 hstep hP
  rcases addCustomField_elim hstep with ⟨_, rfl⟩ | ⟨i, cell, v, hfi, hcell, hv, rfl⟩
  · exact hP
  · rw [pyGet_pyInsert, if_neg (hne entry hentry)]
    exact hP

/-- The record at a custom field's key carries that field's decoded
value. -/
theorem foldlM_addCustom_get {fi : List (Str × Nat)} {row : List Str} {key : Str}
    {info : FieldInfo} {i : Nat} :
    ∀ (cfs : List (Str × FieldInfo)) (rec result : List (Str × Value)),
      (cfs.map Prod.fst).Nodup → pyGet cfs key = some info → pyGet fi key = some i →
      List.foldlM (addCustomField fi row) rec cfs = .ok result →
      ∃ cell v, row.get? i = some cell ∧ decodeCustomValue info.type cell = .ok v ∧
        pyGet result key = some v := by
  intro cfs
  induction cfs with
  | nil => intro rec result _ habs; cases habs
  | cons p rest ih =>
      intro rec result hnodup hget hfi hrun
      obtain ⟨k0, i0⟩ := p
      rw [List.foldlM_cons] at hrun
      obtain ⟨rec1, hstep, hrun⟩ := except_bind_ok_elim hrun
      replace hrun : List.foldlM (addCustomField fi row) rec1 rest = .ok result := hrun
      simp only [List.map_cons, List.nodup_cons] at hnodup
      by_cases h0 : k0 = key
      · subst h0
        have hinfo : i0 = info := by
          unfold pyGet at hget
          rw [if_pos rfl] at hget
          exact Option.some.inj hget
        subst hinfo
        rcases addCustomField_elim hstep with ⟨hnone, _⟩ | ⟨i2, cell, v, hfi2, hcell, hv, hrec⟩
        · exact absurd (hnone.symm.trans hfi) (by intro hh; cases hh)
        · have hii : i2 = i := Option.some.inj (hfi2.symm.trans hfi)
          subst hii
          subst hrec
          refine ⟨cell, v, hcell, hv, ?_⟩
          rw [foldlM_addCustom_preserve rest _ result (by
              intro q hq hqk
              exact hnodup.1 (hqk ▸ List.mem_map_of_mem Prod.fst hq)) hrun]
          rw [pyGet_pyInsert, if_pos rfl]
      · unfold pyGet at hget
        rw [if_neg h0] at hget
        exact ih rec1 result hnodup.2 hget hfi hrun

/-- C10: a discovered custom field whose normalized canonical name equals a
standard column name overwrites the standard column's declared type in the
schema and the standard field's decoded value in every emitted record,
because custom fields are written into the column dict and the record dict
after the standard fields. -/
theorem C10_custom_overwrites_standard (payload : List (Str × Str))
    (cfs : List (Str × FieldInfo)) (mapping : List (Str × Str)) (s : Str)
    (info : FieldInfo)
    (hfetch : fetch_custom_fields payload = .ok (cfs, mapping))
    (hstd : s ∈ standardColumns.map Prod.fst)
    (hcf : pyGet cfs s = some info) :
    (∀ cols, schemaColumns payload = .ok cols → pyGet cols s = some info.type) ∧
    (∀ fi row record i, decodeRow cfs fi row = .ok record → pyGet fi s = some i →
      ∃ cell v, row.get? i = some cell ∧ decodeCustomValue info.type cell = .ok v ∧
        pyGet record s = some v) := by
  have hnodup : (cfs.map Prod.fst).Nodup :=
    fetchLoop_nodup payload [] [] (by simp) hfetch
  constructor
  · intro cols hcols
    unfold schemaColumns at hcols
    obtain ⟨pair, hpair, hcols⟩ := except_bind_ok_elim hcols
    rw [hfetch] at hpair
    have hpair2 : pair = (cfs, mapping) := (Except.ok.inj hpair).symm
    subst hpair2
    simp only [Except.ok.injEq] at hcols
    rw [← hcols]
    exact foldl_insert_get cfs standardColumns hnodup hcf
  · intro fi row record i hok hfi
    unfold decodeRow at hok
    obtain ⟨rec0, hstd0, hfold⟩ := except_bind_ok_elim hok
    exact foldlM_addCustom_get cfs rec0 record hnodup hcf hfi hfold

/-- C10 witness: a custom field named `email` typed `number` overwrites the
standard key column, at a concrete schema and a concrete decoded row. -/
theorem C10_custom_overwrites_standard_witness :
    (∀ cols, schemaColumns [(str "email", str "number")] = .ok cols →
      pyGet cols (str "email") = some (str "DOUBLE")) ∧
    (∀ fi row record i,
      decodeRow [(str "email", ⟨str "DOUBLE", str "email"⟩)] fi row = .ok record →
      pyGet fi (str "email") = some i →
      ∃ cell v, row.get? i = some cell ∧
        decodeCustomValue (str "DOUBLE") cell = .ok v ∧
        pyGet record (str "email") = some v) :=
  C10_custom_overwrites_standard [(str "email", str "number")]
    [(str "email", ⟨str "DOUBLE", str "email"⟩)] [(str "email", str "email")]
    (str "email") ⟨str "DOUBLE", str "email"⟩ rfl (by decide) rfl


/-! ### Batching (C2, C3) -/

/-- Modelled from the spec: the intended batching semantics — upserts in
input order in chunks of `batch_size`, a checkpoint with the cumulative
count after each full chunk, and one final checkpoint unconditionally
after the trailing partial chunk.  Compared against `driverRun`. -/
def specDriver (records : List (List (Str × Value))) (total : Nat) : List Op :=
  if batch_size ≤ records.length then
    (records.take batch_size).map (Op.upsert (str "audience")) ++
      [Op.checkpoint (total + batch_size)] ++
      specDriver (records.drop batch_size) (total + batch_size)
  else
    records.map (Op.upsert (str "audience")) ++ [Op.checkpoint (total + records.length)]
termination_by records.length
decreasing_by
  simp only [List.length_drop, batch_size] at *
  omega

theorem driverRun_tail :
    ∀ (l current_batch : List (List (Str × Value))) (total : Nat),
      (current_batch ++ l).length < batch_size →
      driverRun l current_batch total =
        (current_batch ++ l).map (Op.upsert (str "audience")) ++
          [Op.checkpoint (total + (current_batch ++ l).length)] := by
  intro l
  induction l with
  | nil =>
      intro batch total h
      cases batch with
      | nil => simp [driverRun]
      | cons b bs => simp [driverRun, List.isEmpty]
  | cons r rest ih =>
      intro batch total h
      simp only [List.length_append, List.length_cons, batch_size] at h
      rw [driverRun]
      rw [if_neg (by
        simp only [List.length_append, List.length_cons, List.length_nil, batch_size]
        omega)]
      rw [ih (batch ++ [r]) total (by
        simp only [List.length_append, List.length_cons, List.length_nil, batch_size]
        omega)]
      rw [show (batch ++ [r]) ++ rest = batch ++ r :: rest from by
        rw [List.append_assoc]; rfl]

theorem driverRun_fill :
    ∀ (l1 : List (List (Str × Value))) (r : List (Str × Value))
      (l2 batch : List (List (Str × Value))) (total : Nat),
      (batch ++ l1).length + 1 = batch_size →
      driverRun (l1 ++ r :: l2) batch total =
        (batch ++ l1 ++ [r]).map (Op.upsert (str "audience")) ++
          [Op.checkpoint (total + batch_size)] ++
          driverRun l2 [] (total + batch_size) := by
  intro l1
  induction l1 with
  | nil =>
      intro r l2 batch total h
      simp only [List.append_nil, List.nil_append] at h ⊢
      rw [driverRun]
      rw [if_pos (by
        simp only [List.length_append, List.length_cons, List.length_nil, batch_size] at h ⊢
        omega)]
      have hlen : (batch ++ [r]).length = batch_size := by
        simp only [List.length_append, List.length_cons, List.length_nil, batch_size] at h ⊢
        omega
      rw [hlen]
  | cons a l1' ih =>
      intro r l2 batch total h
      simp only [List.length_append, List.length_cons, batch_size] at h
      rw [show (a :: l1') ++ r :: l2 = a :: (l1' ++ r :: l2) from rfl]
      rw [driverRun]
      rw [if_neg (by
        simp only [List.length_append, List.length_cons, List.length_nil, batch_size]
        omega)]
      rw [ih r l2 (batch ++ [a]) total (by
        simp only [List.length_append, List.length_cons, List.length_nil, batch_size]
        omega)]
      rw [show (batch ++ [a]) ++ l1' = batch ++ a :: l1' from by
        rw [List.append_assoc]; rfl]

theorem driverRun_eq_spec :
    ∀ (n : Nat) (records : List (List (Str × Value))) (total : Nat),
      records.length ≤ n → driverRun records [] total = specDriver records total := by
  intro n
  induction n with
  | zero =>
      intro records total h
      have hnil : records = [] := List.length_eq_zero.mp (Nat.le_zero.mp h)
      subst hnil
      rw [specDriver]
      simp [driverRun, batch_size]
  | succ n ih =>
      intro records total h
      by_cases hlen : batch_size ≤ records.length
      · have hlt : batch_size - 1 < records.length := by
          simp only [batch_size] at *
          omega
        have hsplit : records = records.take (batch_size - 1) ++
            records.get ⟨batch_size - 1, hlt⟩ :: records.drop batch_size := by
          have h1 : records.drop (batch_size - 1) =
              records.get ⟨batch_size - 1, hlt⟩ :: records.drop (batch_size - 1 + 1) :=
            List.drop_eq_get_cons hlt
          rw [show batch_size - 1 + 1 = batch_size from rfl] at h1
          rw [← h1, List.take_append_drop]
        have htake : records.take batch_size =
            records.take (batch_size - 1) ++ [records.get ⟨batch_size - 1, hlt⟩] := by
          nth_rewrite 1 [show batch_size = batch_size - 1 + 1 from rfl]
          rw [List.take_succ, List.getElem?_eq_getElem hlt]
          rfl
        conv_lhs => rw [hsplit]
        rw [driverRun_fill _ _ _ [] total (by
          simp only [List.nil_append, List.length_take, batch_size] at *
          omega)]
        rw [specDriver, if_pos hlen]
        rw [ih _ _ (by
          simp only [List.length_drop, batch_size] at *
          omega)]
        rw [List.nil_append, ← htake]
      · rw [driverRun_tail records [] total (by simpa using Nat.lt_of_not_le hlen)]
        rw [specDriver, if_neg hlen]
        simp


/-- C2: the Batched Sync Driver emits upserts in exactly input order with
checkpoints only at batch boundaries — the loop equals the chunked
specification `specDriver` — and for a 2500-record input it emits the 2500
upserts in order and exactly 3 checkpoints with cumulative counts 1000,
2000, 2500. -/
theorem C2_batching_order :
    (∀ records : List (List (Str × Value)),
      driverRun records [] 0 = specDriver records 0) ∧
    (∀ records : List (List (Str × Value)), records.length = 2500 →
      driverRun records [] 0 =
        (records.take 1000).map (Op.upsert (str "audience")) ++ [Op.checkpoint 1000] ++
          ((records.drop 1000).take 1000).map (Op.upsert (str "audience")) ++
          [Op.checkpoint 2000] ++
          (records.drop 2000).map (Op.upsert (str "audience")) ++
          [Op.checkpoint 2500]) := by
  have hmain : ∀ (records : List (List (Str × Value))) (total : Nat),
      driverRun records [] total = specDriver records total :=
    fun records total => driverRun_eq_spec records.length records total (Nat.le_refl _)
  refine ⟨fun records => hmain records 0, ?_⟩
  intro records h2500
  rw [hmain]
  rw [specDriver, if_pos (by rw [h2500]; decide)]
  rw [specDriver, if_pos (by
    simp only [List.length_drop, h2500]
    decide)]
  rw [specDriver, if_neg (by
    simp only [List.length_drop, h2500]
    decide)]
  simp only [List.drop_drop, List.length_drop, h2500, batch_size, List.append_assoc]


theorem driverRun_last :
    ∀ (l batch : List (List (Str × Value))) (total : Nat),
      (driverRun l batch total).getLast? =
        some (.checkpoint (total + batch.length + l.length)) := by
  intro l
  induction l with
  | nil =>
      intro batch total
      have hdef : driverRun [] batch total =
          batch.map (Op.upsert (str "audience")) ++
            [Op.checkpoint (if batch.isEmpty then total else total + batch.length)] := by
        rw [driverRun]
      rw [hdef, List.getLast?_append]
      cases batch with
      | nil => simp
      | cons b bs =>
          simp only [List.isEmpty, Bool.false_eq_true, if_false, List.getLast?_singleton,
            Option.or, List.length_cons, List.length_nil, Option.some.injEq,
            Op.checkpoint.injEq]
          omega
  | cons r rest ih =>
      intro batch total
      rw [driverRun]
      by_cases hc : batch_size ≤ (batch ++ [r]).length
      · rw [if_pos hc, List.append_assoc, List.getLast?_append, List.getLast?_append,
          ih [] (total + (batch ++ [r]).length)]
        simp only [Option.or, List.length_nil, List.length_append, List.length_cons,
          Option.some.injEq, Op.checkpoint.injEq]
        omega
      · rw [if_neg hc, ih (batch ++ [r]) total]
        simp only [List.length_append, List.length_cons, List.length_nil,
          Option.some.injEq, Op.checkpoint.injEq]
        omega

/-- C3: one final checkpoint is emitted unconditionally after the input is
exhausted — the last emitted operation is always a checkpoint carrying the
total record count — and for exactly 1000 records the driver emits the
boundary checkpoint with count 1000 followed by a second checkpoint with
the unchanged count 1000 at end-of-run. -/
theorem C3_final_checkpoint :
    (∀ records : List (List (Str × Value)),
      (driverRun records [] 0).getLast? = some (.checkpoint records.length)) ∧
    (∀ records : List (List (Str × Value)), records.length = 1000 →
      driverRun records [] 0 =
        records.map (Op.upsert (str "audience")) ++
          [Op.checkpoint 1000, Op.checkpoint 1000]) := by
  constructor
  · intro records
    rw [driverRun_last]
    simp
  · intro records h1000
    have hlt : batch_size - 1 < records.length := by
      rw [h1000]
      decide
    have hdrop : records.drop batch_size = [] :=
      List.drop_eq_nil_of_le (by rw [h1000]; decide)
    have hsplit : records = records.take (batch_size - 1) ++
        records.get ⟨batch_size - 1, hlt⟩ :: ([] : List (List (Str × Value))) := by
      have h1 : records.drop (batch_size - 1) =
          records.get ⟨batch_size - 1, hlt⟩ :: records.drop (batch_size - 1 + 1) :=
        List.drop_eq_get_cons hlt
      rw [show batch_size - 1 + 1 = batch_size from rfl, hdrop] at h1
      rw [← h1, List.take_append_drop]
    have htake : records.take (batch_size - 1) ++
        [records.get ⟨batch_size - 1, hlt⟩] = records := by
      have h2 : records.take batch_size = records.take (batch_size - 1) ++
          [records.get ⟨batch_size - 1, hlt⟩] := by
        nth_rewrite 1 [show batch_size = batch_size - 1 + 1 from rfl]
        rw [List.take_succ, List.getElem?_eq_getElem hlt]
        rfl
      rw [← h2, List.take_of_length_le (by rw [h1000]; decide)]
    conv_lhs => rw [hsplit]
    rw [driverRun_fill _ _ _ [] 0 (by
      simp only [List.nil_append, List.length_take, batch_size] at *
      omega)]
    rw [List.nil_append, htake]
    simp [driverRun, batch_size]

/-- C2 witness: the batching behavior at a concrete 2500-record input. -/
theorem C2_batching_order_witness :
    driverRun (List.replicate 2500 ([] : List (Str × Value))) [] 0 =
      ((List.replicate 2500 ([] : List (Str × Value))).take 1000).map
          (Op.upsert (str "audience")) ++ [Op.checkpoint 1000] ++
        (((List.replicate 2500 ([] : List (Str × Value))).drop 1000).take 1000).map
          (Op.upsert (str "audience")) ++ [Op.checkpoint 2000] ++
        ((List.replicate 2500 ([] : List (Str × Value))).drop 2000).map
          (Op.upsert (str "audience")) ++ [Op.checkpoint 2500] :=
  C2_batching_order.2 (List.replicate 2500 [])
    (List.length_replicate 2500 ([] : List (Str × Value)))

/-- C3 witness: the duplicate trailing checkpoint at a concrete
1000-record input. -/
theorem C3_final_checkpoint_witness :
    driverRun (List.replicate 1000 ([] : List (Str × Value))) [] 0 =
      (List.replicate 1000 ([] : List (Str × Value))).map
          (Op.upsert (str "audience")) ++
        [Op.checkpoint 1000, Op.checkpoint 1000] :=
  C3_final_checkpoint.2 (List.replicate 1000 [])
    (List.length_replicate 1000 ([] : List (Str × Value)))

/-! ### Export Orchestrator (connector.py lines 19-94, claim C8) -/

/-- An observable event of `fetch_loops_export`. -/
inductive OrchEvent where
  | requested
  | waited
  | checked (status : Option Str)
  | signed (url : Str)
deriving DecidableEq, Repr

/-- The poll loop (lines 59-74) over the sequence of status values the
upstream returns, in order.  Each iteration first waits the fixed 5-unit
interval, then checks the status; the loop exits exactly when the literal
`Complete` is observed.  `none` models the run blocking forever because
the provided responses never report `Complete` (the loop has no retry
bound or timeout). -/
def pollLoop : List (Option Str) → Option (List OrchEvent)
  | [] => none
  | s :: rest =>
      if s = some (str "Complete") then some [.waited, .checked s]
      else
        match pollLoop rest with
        | some evs => some (.waited :: .checked s :: evs)
        | none => none

/-- `fetch_loops_export` (lines 19-94) over its observable I/O: the export
id extracted from the creation response, the poll status sequence, and the
presigned URL from the signing response.  Yields the event trace and URL;
the outer `none` is the diverging poll loop. -/
def fetch_loops_export (exportId : Option Str) (statuses : List (Option Str))
    (presignedUrl : Option Str) : Option (Except Str (List OrchEvent × Str)) :=
  match exportId with
  | none => some (.error (str "Could not initiate Loops export - missing export ID."))
  | some _ =>
      match pollLoop statuses with
      | none => none
      | some evs =>
          match presignedUrl with
          | none =>
              some (.error
                (str "Could not retrieve presigned download URL for Loops export."))
          | some url => some (.ok (.requested :: evs ++ [.signed url], url))

theorem pollLoop_sound :
    ∀ statuses : List (Option Str),
      (pollLoop statuses).isSome ↔ some (str "Complete") ∈ statuses := by
  intro statuses
  induction statuses with
  | nil => simp [pollLoop]
  | cons s rest ih =>
      by_cases hs : s = some (str "Complete")
      · subst hs
        simp [pollLoop]
      · rw [pollLoop, if_neg hs]
        cases hp : pollLoop rest with
        | none =>
            rw [hp] at ih
            simp only [List.mem_cons]
            constructor
            · intro habs
              exact absurd habs (by simp)
            · intro hmem
              rcases hmem with hmem | hmem
              · exact absurd hmem.symm hs
              · exact absurd (ih.mpr hmem) (by simp)
        | some evs =>
            rw [hp] at ih
            simp only [List.mem_cons]
            constructor
            · intro _
              exact Or.inr (ih.mp (by simp))
            · intro _
              simp

theorem pollLoop_first_complete :
    ∀ (pre post : List (Option Str)),
      (∀ x ∈ pre, x ≠ some (str "Complete")) →
      pollLoop (pre ++ some (str "Complete") :: post) =
        some ((pre.map (fun s => [OrchEvent.waited, OrchEvent.checked s])).join ++
          [OrchEvent.waited, OrchEvent.checked (some (str "Complete"))]) := by
  intro pre
  induction pre with
  | nil =>
      intro post _
      simp only [List.nil_append, List.map_nil, List.join]
      rw [pollLoop, if_pos rfl]
      rfl
  | cons s pre' ih =>
      intro post h
      rw [List.cons_append, pollLoop, if_neg (h s (List.mem_cons_self s pre'))]
      rw [ih post (fun x hx => h x (List.mem_cons_of_mem s hx))]
      simp [List.join]

/-- Events produced by the poll loop are waits and checks only. -/
theorem pollLoop_events :
    ∀ (statuses : List (Option Str)) (evs : List OrchEvent),
      pollLoop statuses = some evs →
      ∀ e ∈ evs, e = .waited ∨ ∃ s, e = .checked s := by
  intro statuses
  induction statuses with
  | nil => intro evs h; cases h
  | cons s rest ih =>
      intro evs h e he
      rw [pollLoop] at h
      by_cases hs : s = some (str "Complete")
      · rw [if_pos hs] at h
        cases h
        simp only [List.mem_cons, List.not_mem_nil, or_false] at he
        rcases he with rfl | rfl
        · exact Or.inl rfl
        · exact Or.inr ⟨s, rfl⟩
      · rw [if_neg hs] at h
        cases hp : pollLoop rest with
        | none => rw [hp] at h; cases h
        | some evs2 =>
            rw [hp] at h
            cases h
            simp only [List.mem_cons] at he
            rcases he with rfl | rfl | he
            · exact Or.inl rfl
            · exact Or.inr ⟨s, rfl⟩
            · exact ih evs2 hp e he

/-- The poll loop always performs at least one status check. -/
theorem pollLoop_checks :
    ∀ (statuses : List (Option Str)) (evs : List OrchEvent),
      pollLoop statuses = some evs → ∃ s, OrchEvent.checked s ∈ evs := by
  intro statuses
  induction statuses with
  | nil => intro evs h; cases h
  | cons s rest ih =>
      intro evs h
      rw [pollLoop] at h
      by_cases hs : s = some (str "Complete")
      · rw [if_pos hs] at h
        cases h
        exact ⟨s, by simp⟩
      · rw [if_neg hs] at h
        cases hp : pollLoop rest with
        | none => rw [hp] at h; cases h
        | some evs2 =>
            rw [hp] at h
            cases h
            exact ⟨s, by simp⟩

/-- C8: the poll loop terminates exactly when a `Complete` status is
observed; up to the first `Complete` every other status (absent or error
alike) causes another iteration, each iteration is a wait followed by a
check (so a wait precedes every check, including the first); no retry
bound exists (every length of non-Complete prefix is consumed); and a
successful orchestrator trace opens with a single Requesting event, never
returns to it, performs at least one check, and ends with a single
signing event. -/
theorem C8_export_poll_orchestration :
    (∀ statuses : List (Option Str),
      (pollLoop statuses).isSome ↔ some (str "Complete") ∈ statuses) ∧
    (∀ (pre post : List (Option Str)),
      (∀ x ∈ pre, x ≠ some (str "Complete")) →
      pollLoop (pre ++ some (str "Complete") :: post) =
        some ((pre.map (fun s => [OrchEvent.waited, OrchEvent.checked s])).join ++
          [OrchEvent.waited, OrchEvent.checked (some (str "Complete"))])) ∧
    (∀ (exportId : Option Str) (statuses : List (Option Str))
      (presignedUrl : Option Str) (evs : List OrchEvent) (url : Str),
      fetch_loops_export exportId statuses presignedUrl = some (.ok (evs, url)) →
      evs.head? = some .requested ∧
      evs.getLast? = some (.signed url) ∧
      evs.countP (fun e => decide (e = OrchEvent.requested)) = 1 ∧
      (∀ j e, evs.get? j = some e → e = OrchEvent.requested → j = 0) ∧
      (∃ s, OrchEvent.checked s ∈ evs)) := by
  refine ⟨pollLoop_sound, pollLoop_first_complete, ?_⟩
  intro exportId statuses presignedUrl evs url h
  unfold fetch_loops_export at h
  cases exportId with
  | none =>
      simp only [Option.some.injEq] at h
      cases h
  | some id0 =>
      cases hp : pollLoop statuses with
      | none => rw [hp] at h; cases h
      | some pollEvs =>
          rw [hp] at h
          cases presignedUrl with
          | none =>
              simp only [Option.some.injEq] at h
              cases h
          | some u =>
              simp only [Option.some.injEq, Except.ok.injEq, Prod.mk.injEq] at h
              obtain ⟨hevs, hurl⟩ := h
              subst hurl
              rw [← hevs]
              have hpoll := pollLoop_events statuses pollEvs hp
              refine ⟨rfl, ?_, ?_, ?_, ?_⟩
              · rw [show OrchEvent.requested :: pollEvs ++ [OrchEvent.signed u] =
                  (OrchEvent.requested :: pollEvs) ++ [OrchEvent.signed u] from rfl,
                  List.getLast?_append]
                rfl
              · rw [show OrchEvent.requested :: pollEvs ++ [OrchEvent.signed u] =
                  [OrchEvent.requested] ++ (pollEvs ++ [OrchEvent.signed u]) from rfl,
                  List.countP_append, List.countP_append]
                have h0 : pollEvs.countP (fun e => decide (e = OrchEvent.requested)) = 0 := by
                  rw [List.countP_eq_zero]
                  intro e he
                  rcases hpoll e he with rfl | ⟨s, rfl⟩ <;> simp
                rw [h0]
                rfl
              · intro j e hj he
                subst he
                cases j with
                | zero => rfl
                | succ j2 =>
                    rw [List.cons_append, List.get?_cons_succ] at hj
                    have hmem := List.get?_mem hj
                    rw [List.mem_append] at hmem
                    rcases hmem with hmem | hmem
                    · rcases hpoll _ hmem with h1 | ⟨s, h1⟩ <;> cases h1
                    · simp only [List.mem_singleton] at hmem
                      cases hmem
              · obtain ⟨s, hs⟩ := pollLoop_checks statuses pollEvs hp
                exact ⟨s, List.mem_cons_of_mem _ (List.mem_append_left _ hs)⟩

/-- C8 witness: the poll loop at a concrete status sequence with two
non-Complete responses before Complete. -/
theorem C8_export_poll_orchestration_witness :
    (∀ x ∈ [some (str "Processing"), none], x ≠ some (str "Complete")) ∧
    pollLoop ([some (str "Processing"), none] ++ some (str "Complete") :: []) =
      some (([some (str "Processing"), none].map
          (fun s => [OrchEvent.waited, OrchEvent.checked s])).join ++
        [OrchEvent.waited, OrchEvent.checked (some (str "Complete"))]) :=
  ⟨by decide, C8_export_poll_orchestration.2.1 [some (str "Processing"), none] []
    (by decide)⟩

end LoopsConnector
